import Mathlib

/-!
Verification of the py2lscvm translator core against its specification.

The definitions below are a shallow embedding of the Python sources:
  * `helpers.py`  — the numeric encoder `num`, `compress_factors`, `factorise`
  * `opcodes.py`  — the opcode characters and the `stack_effect` table
  * `translator.py` — the `Translator` class (allocators, `translate_node`,
    `translate_function`, `translate`) and `VariableCounter`
together with an executable semantics of the LSCVM opcode table (§6 of the
spec) restricted to forward relative control transfer, which is the only kind
of control transfer the verified code fragments perform.
-/

namespace Py2Lscvm

/-! ## The LSCVM virtual machine (§6 opcode table)

The machine state: an operand stack of (unbounded) integers, a heap mapping
addresses to integers, and the output stream.  `run` executes a list of
opcode characters.  Relative jumps (`G`, `Z`) move forward by dropping the
popped number of following instructions; a backward jump (negative offset)
and the absolute control transfers `C` (call) and `R` (return) are outside
this executable fragment and yield `none`.  `B` (EXIT) halts.  Characters
`a`..`j` push 0..9 (value `c - 0x61`), per the table.  `J` pops `b`, pops
`a`, pushes `sign (a - b)`.  `Z` pops the offset (pushed last), then the
condition, and jumps when the condition is zero, matching the emitted
comparison idioms ("push 3; Z: if the value below is 0, skip 3 characters").
-/

structure VMState where
  stack : List Int
  heap : Int → Int
  output : List Int

/-- Result of one instruction: fall through, skip `k` following
instructions (forward relative jump), halt, or fail (stack underflow,
backward jump, or a control transfer outside the forward fragment). -/
inductive StepRes where
  | next (st : VMState)
  | jump (k : Nat) (st : VMState)
  | halt (st : VMState)
  | fail

/-- Pop two, push `f a b` (`a` below `b`). -/
def binArith (f : Int → Int → Int) (st : VMState) : StepRes :=
  match st.stack with
  | b :: a :: s => .next { st with stack := f a b :: s }
  | _ => .fail

/-- One instruction of the §6 opcode table. -/
def stepInstr (c : Char) (st : VMState) : StepRes :=
  if 0x61 ≤ c.toNat ∧ c.toNat ≤ 0x6a then
    -- PUSH 0..9
    .next { st with stack := ((c.toNat - 0x61 : Nat) : Int) :: st.stack }
  else if c = ' ' then .next st                            -- NOP
  else if c = 'B' then .halt st                            -- EXIT
  else if c = 'G' then                                     -- GO
    match st.stack with
    | o :: s => if 0 ≤ o then .jump o.toNat { st with stack := s } else .fail
    | _ => .fail
  else if c = 'Z' then                                     -- CONDITIONAL_JUMP
    match st.stack with
    | o :: cond :: s =>
      if cond = 0 then
        if 0 ≤ o then .jump o.toNat { st with stack := s } else .fail
      else
        .next { st with stack := s }
    | _ => .fail
  else if c = 'I' ∨ c = 'P' then                           -- PRINT_NUM / PRINT_ASCII
    match st.stack with
    | v :: s => .next { st with stack := s, output := v :: st.output }
    | _ => .fail
  else if c = 'E' then                                     -- HEAP_READ
    match st.stack with
    | a :: s => .next { st with stack := st.heap a :: s }
    | _ => .fail
  else if c = 'K' then                                     -- HEAP_WRITE
    match st.stack with
    | a :: v :: s =>
      .next { st with stack := s, heap := fun x => if x = a then v else st.heap x }
    | _ => .fail
  else if c = 'F' then                                     -- STACK_FIND
    match st.stack with
    | i :: s =>
      if h : 0 ≤ i ∧ i.toNat < s.length then
        .next { st with stack := s.get ⟨i.toNat, h.2⟩ :: s }
      else .fail
    | _ => .fail
  else if c = 'H' then                                     -- STACK_FIND_REMOVE
    match st.stack with
    | i :: s =>
      if h : 0 ≤ i ∧ i.toNat < s.length then
        .next { st with stack := s.get ⟨i.toNat, h.2⟩ ::
          (s.take i.toNat ++ s.drop (i.toNat + 1)) }
      else .fail
    | _ => .fail
  else if c = 'J' then                                     -- STACK_COMPARE
    binArith (fun a b => (a - b).sign) st
  else if c = 'D' then                                     -- STACK_DROP
    match st.stack with
    | _ :: s => .next { st with stack := s }
    | _ => .fail
  else if c = 'A' then binArith (· + ·) st                 -- STACK_ADD
  else if c = 'S' then binArith (· - ·) st                 -- STACK_SUBTRACT
  else if c = 'M' then binArith (· * ·) st                 -- STACK_MULTIPLY
  else if c = 'V' then binArith (· / ·) st                 -- STACK_DIVIDE
  else .fail

def run : List Char → VMState → Option VMState
  | [], st => some st
  | c :: code, st =>
    match stepInstr c st with
    | .next st' => run code st'
    | .jump k st' => run (code.drop k) st'
    | .halt st' => some st'
    | .fail => none
  termination_by code => code.length
  decreasing_by
    all_goals simp_arith [List.length_drop]

def initState : VMState := { stack := [], heap := fun _ => 0, output := [] }

/-! ## The numeric encoder (`helpers.py`)

`factorise` is the trial-division generator (the Python original uses exact
float arithmetic on the integers involved; `Nat.sqrt n` equals
`int(sqrt(n + 0.05))` for the integers in play).  It is given fuel `n`,
which strictly exceeds the recursion depth.  `compress_factors` and `num`
follow the source line by line; `num` recurses on strictly smaller values,
so fuel `i + 1` suffices.
-/

/-- Kernel-computable integer square root: `sqrtGo n fuel k` climbs from `k`
while `(k+1)^2 ≤ n`.  With fuel `n` and start `0` it computes `⌊√n⌋`, the
value of the Python `int(sqrt(n + 0.05))` on the integers in play. -/
def sqrtGo (n : Nat) : Nat → Nat → Nat
  | 0, k => k
  | fuel + 1, k => if (k + 1) * (k + 1) ≤ n then sqrtGo n fuel (k + 1) else k

def natSqrt (n : Nat) : Nat := sqrtGo n n 0

/-- First `i` in `[j, natSqrt n]` with `n % i = 0`, like the `for i in
range(j, int(sqrt(n+0.05)) + 1)` search in `factorise`; fuelled so that it
computes by kernel reduction. -/
def findFactorF (n : Nat) : Nat → Nat → Option Nat
  | _, 0 => none
  | j, fuel + 1 =>
    if j ≤ natSqrt n then
      if n % j = 0 then some j else findFactorF n (j + 1) fuel
    else none

def findFactor (n : Nat) (j : Nat) : Option Nat :=
  findFactorF n j (natSqrt n + 1 - j)

def factoriseF : Nat → Nat → Nat → List Nat
  | 0, _, _ => []
  | fuel + 1, n, j =>
    if n ≤ 1 then []
    else
      match findFactor n j with
      | some i => i :: factoriseF fuel (n / i) i
      | none => [n]

def factorise (n : Nat) : List Nat := factoriseF n n 2

/-- `reduce(lambda x, y: x*y, l)` over a (possibly empty) list, with the
Python code's convention that an empty accumulator means `1`. -/
def listProd (l : List Nat) : Nat := l.foldl (· * ·) 1

/-- The loop of `compress_factors`, carrying the `temp` and `out` lists
(`mult_temp` is `listProd temp`). -/
def compressGo : List Nat → List Nat → List Nat → List Nat × List Nat
  | [], temp, out => (out, temp)
  | f :: rest, temp, out =>
    if listProd temp * f > 9 then compressGo rest [f] (out ++ [listProd temp])
    else compressGo rest (temp ++ [f]) out

/-- `compress_factors` from `helpers.py`: run the loop, then flush a
nonempty trailing `temp` whose product fits in a digit, and return
`out + temp`. -/
def compress_factors (factors : List Nat) : List Nat :=
  if (compressGo factors [] []).2 ≠ [] ∧ listProd (compressGo factors [] []).2 ≤ 9 then
    (compressGo factors [] []).1 ++ [listProd (compressGo factors [] []).2]
  else (compressGo factors [] []).1 ++ (compressGo factors [] []).2

/-! `num` from `helpers.py`, fuelled structurally so it computes by kernel
reduction.  The argument is an `Int` because the While lowering calls it on
negative lengths; `chr(0x61 + i)` is `Char.ofNat (0x61 + i).toNat`.
`numLoop rec` is the `for factor in compress_factors(...)` loop with its
`first_opcode` flag ("M" is appended after every factor except the first);
`rec` is the recursive call to `num` one fuel level down. -/

def numLoop (rec : Int → List Char) : List Nat → Bool → List Char
  | [], _ => []
  | f :: fs, first =>
    (if f ≤ 9 then [Char.ofNat (0x61 + f)]
     else if f ≤ 18 then rec (f : Int)
     else Char.ofNat (0x61 + 1) :: (rec ((f : Int) - 1) ++ ['A']))
    ++ (if first then [] else ['M'])
    ++ numLoop rec fs false

def numF : Nat → Int → List Char
  | 0, _ => []
  | fuel + 1, i =>
    if i ≤ 9 then [Char.ofNat (0x61 + i).toNat]
    else if i ≤ 18 then
      [Char.ofNat (0x61 + 9), Char.ofNat (0x61 + (i - 9)).toNat, 'A']
    else
      numLoop (numF fuel) (compress_factors (factorise i.toNat)) true

def num (i : Int) : List Char := numF (i.toNat + 1) i

/-- The characters the numeric encoder may produce for nonnegative input. -/
def numAlphabet : List Char :=
  ['a', 'b', 'c', 'd', 'e', 'f', 'g', 'h', 'i', 'j', 'A', 'M']

/-! ## Straight-line code predicates -/

/-- `Pushes s v`: executing `s` (in any code continuation, from any state)
pushes `v` on the stack and touches nothing else.  This is the composable
form of "net stack effect +1, value `v`" for jump-free code. -/
def Pushes (s : List Char) (v : Int) : Prop :=
  ∀ (st : VMState) (t : List Char),
    run (s ++ t) st = run t { st with stack := v :: st.stack }

/-- The emission for one factor group in the `num` loop pushes the group's
value, given that the recursive encoder is correct on the values used. -/
def EmitOk (rec : Int → List Char) (g : Nat) : Prop :=
  Pushes (if g ≤ 9 then [Char.ofNat (0x61 + g)]
          else if g ≤ 18 then rec (g : Int)
          else Char.ofNat (0x61 + 1) :: (rec ((g : Int) - 1) ++ ['A'])) (g : Int)

/-! ## The comparison synthesis suffixes (`translator.py`, Compare handler)

`cmpSuffix op` is everything the Compare handler appends after lowering the
two operands.  The characters are the opcode constants the source uses:
`STACK_0..STACK_5` are `'a'..'f'`, `STACK_COMPARE` is `'J'`,
`CONDITIONAL_JUMP` is `'Z'`, `GO` is `'G'`, `STACK_FIND` is `'F'`,
`STACK_SUBTRACT`/`STACK_ADD` are `'S'`/`'A'`, `STACK_DROP` is `'D'`. -/

inductive CmpOp where
  | eq | notEq | gt | lt | gte | lte
deriving DecidableEq, Repr

def cmpSuffix : CmpOp → List Char
  | .notEq => ['J', 'd', 'Z', 'b', 'b', 'G', 'a']
  | .eq => ['J', 'd', 'Z', 'a', 'b', 'G', 'b']
  | .gt => ['J', 'b', 'S', 'd', 'Z', 'a', 'b', 'G', 'b']
  | .lt => ['J', 'b', 'A', 'd', 'Z', 'a', 'b', 'G', 'b']
  | .gte => ['J', 'a', 'F', 'b', 'S', 'f', 'Z', 'e', 'Z', 'a', 'c', 'G', 'D', 'b']
  | .lte => ['J', 'a', 'F', 'b', 'A', 'f', 'Z', 'e', 'Z', 'a', 'c', 'G', 'D', 'b']

/-- The relation each comparison operator denotes. -/
def cmpRel : CmpOp → Int → Int → Bool
  | .eq, a, b => decide (a = b)
  | .notEq, a, b => decide (a ≠ b)
  | .gt, a, b => decide (b < a)
  | .lt, a, b => decide (a < b)
  | .gte, a, b => decide (b ≤ a)
  | .lte, a, b => decide (a ≤ b)

/-! ## The translator (`translator.py`)

Opcode constants from `opcodes.py`, the `stack_effect` table, the AST node
type (the node kinds `translate_node` dispatches on, with the fields the
source accesses: e.g. a Subscript's `value.id` and an AugAssign's
`target.id` are strings because the source reads `.id` directly), the
translator state, the allocators, the `VariableCounter` discovery pass,
`translate_node`, `translate_function` and `translate`.

Python dictionaries are modelled as insertion-ordered association lists:
`dictInsert` replaces in place or appends, `dictLookup` finds the unique
binding.  Exceptions are `Except Err`; the three allocators return
`TState × Option Err` so that the state on the raising path (unchanged,
since the source raises before mutating) is visible.
-/

def NOP : Char := ' '
def CALL : Char := 'C'
def RETURN : Char := 'R'
def GO : Char := 'G'
def CONDITIONAL_JUMP : Char := 'Z'
def EXIT : Char := 'B'
def PRINT_NUM : Char := 'I'
def PRINT_ASCII : Char := 'P'
def HEAP_READ : Char := 'E'
def HEAP_WRITE : Char := 'K'
def STACK_FIND : Char := 'F'
def STACK_FIND_REMOVE : Char := 'H'
def STACK_COMPARE : Char := 'J'
def STACK_DROP : Char := 'D'
def STACK_ADD : Char := 'A'
def STACK_SUBTRACT : Char := 'S'
def STACK_MULTIPLY : Char := 'M'
def STACK_DIVIDE : Char := 'V'
def STACK_0 : Char := 'a'
def STACK_1 : Char := 'b'
def STACK_2 : Char := 'c'
def STACK_3 : Char := 'd'
def STACK_4 : Char := 'e'
def STACK_5 : Char := 'f'
def STACK_6 : Char := 'g'
def STACK_7 : Char := 'h'
def STACK_8 : Char := 'i'
def STACK_9 : Char := 'j'

/-- The `stack_effect` dictionary of `opcodes.py`: `none` on a character
that is not a key of the table. -/
def stack_effect (c : Char) : Option Int :=
  if c = NOP then some 0
  else if c = CALL then some (-1)
  else if c = RETURN then some 0
  else if c = GO then some (-1)
  else if c = CONDITIONAL_JUMP then some (-2)
  else if c = EXIT then some 0
  else if c = PRINT_NUM then some (-1)
  else if c = PRINT_ASCII then some (-1)
  else if c = HEAP_READ then some 0
  else if c = HEAP_WRITE then some (-2)
  else if c = STACK_FIND then some 0
  else if c = STACK_FIND_REMOVE then some (-1)
  else if c = STACK_COMPARE then some (-1)
  else if c = STACK_DROP then some (-1)
  else if c = STACK_SUBTRACT then some (-1)
  else if c = STACK_ADD then some (-1)
  else if c = STACK_MULTIPLY then some (-1)
  else if c = STACK_DIVIDE then some (-1)
  else if 0x61 ≤ c.toNat ∧ c.toNat ≤ 0x6a then some 1
  else none

/-- Net stack effect of a string: the sum of the `stack_effect` table
entries over its characters, `none` if some character is not in the table. -/
def sumEff : List Char → Option Int
  | [] => some 0
  | c :: s => do
    let e ← stack_effect c
    let r ← sumEff s
    pure (e + r)

/-- The 28-character opcode alphabet of §6. -/
def opcodeAlphabet : List Char :=
  [' ', 'C', 'R', 'G', 'Z', 'B', 'I', 'P', 'E', 'K', 'F', 'H', 'J', 'D',
   'A', 'S', 'M', 'V', 'a', 'b', 'c', 'd', 'e', 'f', 'g', 'h', 'i', 'j']

inductive BinOpKind where
  | add | sub | mult | div
deriving DecidableEq, Repr

inductive BoolOpKind where
  | bAnd | bOr
deriving DecidableEq, Repr

inductive Node where
  | name (id : String)
  | num (n : Int)
  | list (elts : List Node)
  /-- `a[i]`: the source reads `node.value.id` (the array name) and
  `node.slice.value` (the index); `store` is the `Store`/`Load` context. -/
  | subscript (value : String) (slice : Node) (store : Bool)
  | binOp (op : BinOpKind) (left right : Node)
  | boolOp (op : BoolOpKind) (values : List Node)
  | assign (targets : List Node) (value : Node)
  | augAssign (target : String) (op : BinOpKind) (value : Node)
  | ifStmt (test : Node) (body orelse : List Node)
  | compare (left : Node) (ops : List CmpOp) (comparators : List Node)
  | call (func : Node) (args : List Node)
  | whileStmt (test : Node) (body orelse : List Node)
  | exprStmt (value : Node)
  | ret (value : Node)
  | functionDef (fname : String) (args : List String) (body : List Node)
  | importFrom (module : String)

structure ArrEntry where
  offset : Nat
  size : Nat
deriving DecidableEq, Repr

/-- A function-table entry; `opcodes` is `none` between the creation of the
entry (start of `translate_function`, offset already final) and the store of
the emitted body (end of `translate_function`). -/
structure FuncEntry where
  offset : Nat
  opcodes : Option (List Char)
deriving DecidableEq, Repr

structure TState where
  globals : List (String × Nat)
  locals : List (String × Nat)
  arrays : List (String × ArrEntry)
  functions : List (String × FuncEntry)
  funcs_len : Nat
deriving DecidableEq, Repr

inductive Err where
  /-- `TranslationFail`: a capacity limit was exceeded. -/
  | fail (msg : String)
  /-- `TranslationUnknown`: an unsupported construct. -/
  | unknown (msg : String)
  /-- `TranslationError`: unknown variable, undefined function, … -/
  | error (msg : String)
  /-- A Python-level exception (`KeyError`, `AttributeError`, `IndexError`)
  on a node shape the parser does not produce. -/
  | pyError (msg : String)
deriving DecidableEq, Repr

def dictLookup {α : Type} (k : String) : List (String × α) → Option α
  | [] => none
  | (k', v) :: rest => if k = k' then some v else dictLookup k rest

def dictInsert {α : Type} (k : String) (v : α) : List (String × α) → List (String × α)
  | [] => [(k, v)]
  | (k', v') :: rest => if k = k' then (k, v) :: rest else (k', v') :: dictInsert k v rest

def FUNCTION_OFFSET_START : Nat := 10
def MAX_VARIABLES : Nat := 32
def VARIABLE_OFFSET : Nat := 0
def MAX_ARRAY : Nat := 128
def ARRAY_OFFSET : Nat := 32

def initTState : TState := ⟨[], [], [], [], FUNCTION_OFFSET_START⟩

/-- Sum of the sizes of the already-allocated arrays. -/
def arraysAllocated (st : TState) : Nat :=
  (st.arrays.map (fun a => a.2.size)).sum

/-- `Translator.alloc_array`: raises (capacity) before touching the table. -/
def alloc_array (st : TState) (nm : String) (size : Nat) : TState × Option Err :=
  if arraysAllocated st + size > MAX_ARRAY then
    (st, some (.fail "Cannot allocate array space. Increase MAX_ARRAY"))
  else
    ({ st with arrays := dictInsert nm ⟨ARRAY_OFFSET + arraysAllocated st, size⟩ st.arrays },
     none)

/-- `Translator.alloc_global`. -/
def alloc_global (st : TState) (nm : String) : TState × Option Err :=
  if VARIABLE_OFFSET + st.globals.length ≥ VARIABLE_OFFSET + MAX_VARIABLES then
    (st, some (.fail ("Failed to allocate global variable " ++ nm
      ++ ". Try increasing MAX_VARIABLES?")))
  else
    ({ st with globals := dictInsert nm (VARIABLE_OFFSET + st.globals.length) st.globals },
     none)

/-- `Translator.alloc_local`: locals sit immediately after the globals. -/
def alloc_local (st : TState) (nm : String) : TState × Option Err :=
  if VARIABLE_OFFSET + st.globals.length + st.locals.length
      ≥ VARIABLE_OFFSET + MAX_VARIABLES then
    (st, some (.fail ("Failed to allocate local variable " ++ nm
      ++ ". Try increasing MAX_VARIABLES?")))
  else
    ({ st with locals :=
        dictInsert nm (VARIABLE_OFFSET + st.globals.length + st.locals.length) st.locals },
     none)

/-- `Translator.read_var`: locals first, then globals. -/
def read_var (st : TState) (nm : String) : Except Err (List Char) :=
  match dictLookup nm st.locals with
  | some offset => .ok (num (offset : Nat) ++ [HEAP_READ])
  | none =>
    match dictLookup nm st.globals with
    | some offset => .ok (num (offset : Nat) ++ [HEAP_READ])
    | none => .error (.error ("Cannot read from unknown variable " ++ nm))

/-- `Translator.write_var`. -/
def write_var (st : TState) (nm : String) : Except Err (List Char) :=
  match dictLookup nm st.locals with
  | some offset => .ok (num (offset : Nat) ++ [HEAP_WRITE])
  | none =>
    match dictLookup nm st.globals with
    | some offset => .ok (num (offset : Nat) ++ [HEAP_WRITE])
    | none => .error (.error ("Cannot write to unknown variable " ++ nm))

def binOpChar : BinOpKind → Char
  | .add => STACK_ADD
  | .sub => STACK_SUBTRACT
  | .mult => STACK_MULTIPLY
  | .div => STACK_DIVIDE

def boolOpChar : BoolOpKind → Char
  | .bAnd => STACK_MULTIPLY
  | .bOr => STACK_ADD

/-- Lines 5–7 of the While lowering: `CONDITIONAL_JUMP + body + GO`. -/
def whileBody (bodyS : List Char) : List Char :=
  CONDITIONAL_JUMP :: (bodyS ++ [GO])

/-- Lines 2–7 of the While lowering: duplicate the backward offset, test,
push the forward exit offset, then `whileBody`. -/
def whileMid (testS bodyS : List Char) : List Char :=
  [STACK_0, STACK_FIND] ++ testS
    ++ num (((whileBody bodyS).length - 1 : Nat)) ++ whileBody bodyS

mutual

/-- `Translator.translate_node`.  The state is only read, never written, so
the translation of a node is a function of the node and the current state. -/
def translate_node (st : TState) : Node → Except Err (List Char)
  | .name id => read_var st id
  | .num n => .ok (num n)
  | .subscript value slice store =>
    match dictLookup value st.arrays with
    | none => .error (.pyError ("KeyError: " ++ value))
    | some arr => do
      let idx ← translate_node st slice
      .ok (num (arr.offset : Nat) ++ idx ++ [STACK_ADD]
           ++ (if store then [HEAP_WRITE] else [HEAP_READ]))
  | .binOp op l r => do
    let ls ← translate_node st l
    let rs ← translate_node st r
    .ok (ls ++ rs ++ [binOpChar op])
  | .boolOp op values => do
    let vs ← translate_nodes st values
    .ok (vs ++ List.replicate (values.length - 1) (boolOpChar op))
  -- Assign: the sanity check (`len(targets) > 1`), then the three branches
  -- (list literal into a known array; subscript target; plain name target).
  | .assign (_ :: _ :: _) _ =>
    .error (.unknown "Cannot assign to more than one variable at a time")
  | .assign [] _ => .error (.pyError "IndexError: targets")
  | .assign [.name arr_name] (.list elts) =>
    match dictLookup arr_name st.arrays with
    | none => .error (.fail ("Tried to write to unknown array " ++ arr_name))
    | some arr => translate_list_assign st arr.offset 0 elts
  | .assign [_] (.list _) => .error (.pyError "AttributeError: id")
  | .assign [.subscript v s c] value => do
    let valS ← translate_node st value
    let tgtS ← translate_node st (.subscript v s c)
    .ok (valS ++ tgtS)
  | .assign [.name tname] value => do
    let valS ← translate_node st value
    let w ← write_var st tname
    .ok (valS ++ w)
  | .assign [_] _ => .error (.pyError "AttributeError: id")
  | .augAssign target op value => do
    let r ← read_var st target
    let v ← translate_node st value
    let w ← write_var st target
    .ok (r ++ v ++ [binOpChar op] ++ w)
  | .ifStmt test body orelse => do
    let t ← translate_node st test
    let b ← translate_nodes st body
    let e ← translate_nodes st orelse
    .ok (t ++ num ((b ++ num (e.length : Nat) ++ [GO]).length : Nat)
         ++ [CONDITIONAL_JUMP] ++ (b ++ num (e.length : Nat) ++ [GO]) ++ e)
  | .compare left ops comparators => do
    let l ← translate_node st left
    if comparators.length > 1 then
      .error (.unknown "More than one comparator present")
    else
      match comparators with
      | [] => .error (.pyError "IndexError: comparators")
      | cmp :: _ => do
        let r ← translate_node st cmp
        if ops.length > 1 then
          .error (.unknown "More than one operator provided")
        else
          match ops with
          | [] => .error (.pyError "IndexError: ops")
          | op :: _ => .ok (l ++ r ++ cmpSuffix op)
  | .call func args =>
    match func with
    | .name func_name =>
      if (func_name = "putchar" ∨ func_name = "putint" ∨ func_name = "puts")
          ∨ (dictLookup func_name st.functions).isSome then do
        let argsS ← translate_nodes st args
        if func_name = "putchar" then .ok (argsS ++ [PRINT_ASCII])
        else if func_name = "putint" then .ok (argsS ++ [PRINT_NUM])
        else if func_name = "puts" then .ok argsS
        else
          match dictLookup func_name st.functions with
          | some entry => .ok (argsS ++ num (entry.offset : Nat) ++ [CALL])
          | none => .error (.pyError "KeyError: functions")
      else .error (.error ("Tried to call undefined function " ++ func_name))
    | _ => .error (.unknown "Calling functions this way is not supported")
  | .whileStmt test body orelse =>
    if !orelse.isEmpty then
      .error (.unknown "Handling of While.orelse is not implemented")
    else do
      let bodyS ← translate_nodes st body
      let testS ← translate_node st test
      .ok (num (-((whileMid testS bodyS).length : Int))
           ++ whileMid testS bodyS ++ [STACK_DROP, STACK_DROP])
  | .exprStmt value => translate_node st value
  | .ret value => translate_node st value
  | .list _ => .error (.unknown "Missing handler for node type List")
  | .functionDef _ _ _ => .error (.unknown "Missing handler for node type FunctionDef")
  | .importFrom _ => .error (.unknown "Missing handler for node type ImportFrom")

/-- `Translator.translate_nodes`: concatenation over a statement list. -/
def translate_nodes (st : TState) : List Node → Except Err (List Char)
  | [] => .ok []
  | n :: ns => do
    let s ← translate_node st n
    let rest ← translate_nodes st ns
    .ok (s ++ rest)

/-- The `for i, val in enumerate(node.value.elts)` loop of the list-assign
branch: each element is lowered, then written to `offset + i`. -/
def translate_list_assign (st : TState) (off : Nat) (i : Nat) :
    List Node → Except Err (List Char)
  | [] => .ok []
  | v :: vs => do
    let s ← translate_node st v
    let rest ← translate_list_assign st off (i + 1) vs
    .ok (s ++ num ((off + i : Nat)) ++ [HEAP_WRITE] ++ rest)

end

mutual

/-- `VariableCounter`: collects `Assign`/`AugAssign` targets with their
sizes.  `rootIsFunc` records whether the tree handed to the counter was a
`FunctionDef` (the source compares against the class name of the root to
decide whether to descend into function definitions). -/
def countNode (rootIsFunc : Bool) (vars : List (String × Nat)) :
    Node → List (String × Nat)
  | .assign targets value =>
    match targets with
    | .name tid :: _ =>
      match value with
      | .list elts => dictInsert tid elts.length vars
      | _ => dictInsert tid 1 vars
    | _ => vars
  | .augAssign target _ _ => dictInsert target 1 vars
  | .functionDef _ _ body =>
    if rootIsFunc then countNodes rootIsFunc vars body else vars
  | .ifStmt test body orelse =>
    countNodes rootIsFunc (countNodes rootIsFunc (countNode rootIsFunc vars test) body) orelse
  | .whileStmt test body orelse =>
    countNodes rootIsFunc (countNodes rootIsFunc (countNode rootIsFunc vars test) body) orelse
  | .exprStmt v => countNode rootIsFunc vars v
  | .ret v => countNode rootIsFunc vars v
  | .boolOp _ values => countNodes rootIsFunc vars values
  | .binOp _ l r => countNode rootIsFunc (countNode rootIsFunc vars l) r
  | .compare l _ cs => countNodes rootIsFunc (countNode rootIsFunc vars l) cs
  | .call f args => countNodes rootIsFunc (countNode rootIsFunc vars f) args
  | .list elts => countNodes rootIsFunc vars elts
  | .subscript _ s _ => countNode rootIsFunc vars s
  | .name _ => vars
  | .num _ => vars
  | .importFrom _ => vars

def countNodes (rootIsFunc : Bool) (vars : List (String × Nat)) :
    List Node → List (String × Nat)
  | [] => vars
  | n :: ns => countNodes rootIsFunc (countNode rootIsFunc vars n) ns

end

/-- The `for arg in node.args.args: self.alloc_local(arg.arg)` loop. -/
def allocLocals (st : TState) : List String → Except Err TState
  | [] => .ok st
  | a :: rest =>
    match alloc_local st a with
    | (_, some e) => .error e
    | (st', none) => allocLocals st' rest

/-- The `for arg in args[::-1]` loop (called on the reversed list): emit
`num(locals[arg]) + HEAP_WRITE` for each argument. -/
def argsPrologue (st : TState) : List String → Except Err (List Char)
  | [] => .ok []
  | a :: rest =>
    match dictLookup a st.locals with
    | none => .error (.pyError ("KeyError: " ++ a))
    | some off => do
      let rest' ← argsPrologue st rest
      .ok (num (off : Nat) ++ [HEAP_WRITE] ++ rest')

/-- The local-variable discovery loop of `translate_function`: arguments are
skipped, arrays are rejected, everything else becomes a local. -/
def allocDiscovered (st : TState) (args : List String) :
    List (String × Nat) → Except Err TState
  | [] => .ok st
  | (v, size) :: rest =>
    if v ∈ args then allocDiscovered st args rest
    else if size > 1 then
      .error (.unknown "Arrays should be declared globally, not inside a function")
    else
      match alloc_local st v with
      | (_, some e) => .error e
      | (st', none) => allocDiscovered st' args rest

/-- `self.functions[func_name]["opcodes"] = opcodes`. -/
def setFuncOps (fname : String) (ops : List Char) :
    List (String × FuncEntry) → List (String × FuncEntry)
  | [] => []
  | (k, e) :: rest =>
    if k = fname then (k, { e with opcodes := some ops }) :: rest
    else (k, e) :: setFuncOps fname ops rest

/-- `Translator.translate_function`: create the table entry (final offset)
first, allocate the arguments, emit the argument prologue in reverse order,
discover and allocate the remaining locals, lower the body, append
`RETURN`, clear the locals, store the body and advance `funcs_len`. -/
def translate_function (st : TState) (fname : String) (args : List String)
    (body : List Node) : Except Err TState := do
  let st1 : TState :=
    { st with functions := dictInsert fname ⟨st.funcs_len, none⟩ st.functions }
  let st2 ← allocLocals st1 args
  let pro ← argsPrologue st2 args.reverse
  let st3 ← allocDiscovered st2 args (countNode true [] (.functionDef fname args body))
  let bodyS ← translate_nodes st3 body
  .ok { st3 with
        locals := [],
        functions := setFuncOps fname (pro ++ bodyS ++ [RETURN]) st3.functions,
        funcs_len := st3.funcs_len + (pro ++ bodyS ++ [RETURN]).length }

/-- The global-allocation loop of `translate`: size-1 entries become
globals, larger entries become arrays. -/
def allocGlobalsAndArrays (st : TState) : List (String × Nat) → Except Err TState
  | [] => .ok st
  | (v, size) :: rest =>
    if size = 1 then
      match alloc_global st v with
      | (_, some e) => .error e
      | (st', none) => allocGlobalsAndArrays st' rest
    else
      match alloc_array st v size with
      | (_, some e) => .error e
      | (st', none) => allocGlobalsAndArrays st' rest

/-- The `for node in ast.iter_child_nodes(tree)` loop that compiles every
top-level `FunctionDef` in source order. -/
def translateFunctions (st : TState) : List Node → Except Err TState
  | [] => .ok st
  | .functionDef fname args body :: rest => do
    let st' ← translate_function st fname args body
    translateFunctions st' rest
  | _ :: rest => translateFunctions st rest

/-- Discovery plus function compilation: the state of the translator when
the prologue is about to be emitted. -/
def stage12 (tree : List Node) : Except Err TState := do
  let st1 ← allocGlobalsAndArrays initTState (countNodes false [] tree)
  translateFunctions st1 tree

/-- `sum(len(func["opcodes"]) for func in functions.values())`. -/
def totalFuncLength (st : TState) : Nat :=
  (st.functions.map (fun f => (f.2.opcodes.getD []).length)).sum

/-- `str.ljust(w, " ")`. -/
def padRight (s : List Char) (w : Nat) : List Char :=
  s ++ List.replicate (w - s.length) NOP

/-- The prologue `num(total).ljust(FUNCTION_OFFSET_START - 1, " ") + GO`,
emitted only when the function table is nonempty and only when it fits. -/
def emitPrologue (st : TState) : Except Err (List Char) :=
  if st.functions.length ≠ 0 then
    if (padRight (num (totalFuncLength st : Nat)) (FUNCTION_OFFSET_START - 1)
          ++ [GO]).length > FUNCTION_OFFSET_START then
      .error (.fail "JMP instruction too long. Increase FUNCTION_OFFSET_START")
    else
      .ok (padRight (num (totalFuncLength st : Nat)) (FUNCTION_OFFSET_START - 1) ++ [GO])
  else .ok []

/-- Concatenation of the function bodies in insertion order. -/
def funcBodies (st : TState) : List Char :=
  (st.functions.map (fun f => f.2.opcodes.getD [])).flatten

/-- The final loop of `translate`: lower every top-level statement, skipping
`from stubs import *` and function definitions. -/
def translateTopLevel (st : TState) : List Node → Except Err (List Char)
  | [] => .ok []
  | .importFrom m :: rest =>
    if m = "stubs" then translateTopLevel st rest
    else do
      let s ← translate_node st (.importFrom m)
      let r ← translateTopLevel st rest
      .ok (s ++ r)
  | .functionDef _ _ _ :: rest => translateTopLevel st rest
  | node :: rest => do
    let s ← translate_node st node
    let r ← translateTopLevel st rest
    .ok (s ++ r)

/-- `Translator.translate` on a parsed module body: discovery and global
allocation, function compilation, prologue, function block, top level. -/
def translate (tree : List Node) : Except Err (List Char) := do
  let st ← stage12 tree
  let pro ← emitPrologue st
  let body ← translateTopLevel st tree
  .ok (pro ++ funcBodies st ++ body)

/-- The function-definition names of a module body, in source order. -/
def funcNames (tree : List Node) : List String :=
  tree.filterMap (fun n => match n with
    | .functionDef f _ _ => some f
    | _ => none)

/-- The function-table invariant: `funcs_len` is `FUNCTION_OFFSET_START`
plus the total body length, every entry has its body stored, and each
entry's offset is `FUNCTION_OFFSET_START` plus the lengths of the bodies
inserted before it. -/
def FuncTableOk (fns : List (String × FuncEntry)) (flen : Nat) : Prop :=
  flen = FUNCTION_OFFSET_START + (fns.map (fun f => (f.2.opcodes.getD []).length)).sum
  ∧ (∀ f ∈ fns, f.2.opcodes.isSome)
  ∧ ∀ k (hk : k < fns.length),
      (fns.get ⟨k, hk⟩).2.offset
        = FUNCTION_OFFSET_START
          + ((fns.take k).map (fun f => (f.2.opcodes.getD []).length)).sum

/-- Locals produced by allocating a list of fresh names from `base` up. -/
def localsAfter (base : Nat) : List String → List (String × Nat)
  | [] => []
  | a :: rest => (a, base) :: localsAfter (base + 1) rest

/-- The argument prologue of a function with `k` parameters when `g`
globals exist: for `i` from `k` down to `1`, `num (g + i - 1) + HEAP_WRITE`. -/
def revPrologue (b : Nat) : Nat → List Char
  | 0 => []
  | k + 1 => num ((b + k : Nat)) ++ [HEAP_WRITE] ++ revPrologue b k

/-! ## While-free programs and stack-effect predicates -/

mutual

/-- Nodes free of `While` whose integer literals are all nonnegative. -/
def okNode : Node → Bool
  | .name _ => true
  | .num n => decide (0 ≤ n)
  | .list elts => okNodes elts
  | .subscript _ s _ => okNode s
  | .binOp _ l r => okNode l && okNode r
  | .boolOp _ values => okNodes values
  | .assign targets value => okNodes targets && okNode value
  | .augAssign _ _ value => okNode value
  | .ifStmt t b e => okNode t && (okNodes b && okNodes e)
  | .compare l _ cs => okNode l && okNodes cs
  | .call f args => okNode f && okNodes args
  | .whileStmt _ _ _ => false
  | .exprStmt v => okNode v
  | .ret v => okNode v
  | .functionDef _ _ body => okNodes body
  | .importFrom _ => true

/-- `okNode` over every node of a list. -/
def okNodes : List Node → Bool
  | [] => true
  | n :: ns => okNode n && okNodes ns

end

/-- Per-factor emission of the `num` loop has net effect `+1`. -/
def EmitSum (rec : Int → List Char) (g : Nat) : Prop :=
  sumEff (if g ≤ 9 then [Char.ofNat (0x61 + g)]
          else if g ≤ 18 then rec (g : Int)
          else Char.ofNat (0x61 + 1) :: (rec ((g : Int) - 1) ++ ['A'])) = some 1

/-! ## `natSqrt` computes `Nat.sqrt` -/

lemma sqrtGo_eq (n : Nat) :
    ∀ fuel k, k * k ≤ n → Nat.sqrt n ≤ k + fuel → sqrtGo n fuel k = Nat.sqrt n := by
  intro fuel
  induction fuel with
  | zero =>
    intro k h1 h2
    have := Nat.le_sqrt.mpr h1
    simp only [sqrtGo]
    omega
  | succ fuel ih =>
    intro k h1 h2
    rw [sqrtGo]
    split
    · exact ih (k + 1) (by assumption) (by omega)
    · have h3 : n < (k + 1) ^ 2 := by rw [pow_two]; omega
      have h4 := Nat.sqrt_lt'.mpr h3
      have := Nat.le_sqrt.mpr h1
      omega

lemma natSqrt_eq (n : Nat) : natSqrt n = Nat.sqrt n :=
  sqrtGo_eq n n 0 (by simp) (by simpa using Nat.sqrt_le_self n)

/-! ## Executing straight-line arithmetic code

`Pushes s v`: executing `s` (in any code continuation, from any state)
pushes `v` on the stack and touches nothing else.  This is the composable
form of "net stack effect +1, value `v`" for jump-free code. -/

lemma run_cons_next {c : Char} {st st' : VMState} (code : List Char)
    (h : stepInstr c st = .next st') : run (c :: code) st = run code st' := by
  rw [run, h]

lemma run_cons_jump {c : Char} {k : Nat} {st st' : VMState} (code : List Char)
    (h : stepInstr c st = .jump k st') : run (c :: code) st = run (code.drop k) st' := by
  rw [run, h]

lemma stepInstr_digit {d : Nat} (hd : d ≤ 9) (st : VMState) :
    stepInstr (Char.ofNat (0x61 + d)) st
      = .next { st with stack := (d : Int) :: st.stack } := by
  interval_cases d <;> simp +decide [stepInstr]

lemma run_digit {d : Nat} (hd : d ≤ 9) (code : List Char) (st : VMState) :
    run (Char.ofNat (0x61 + d) :: code) st
      = run code { st with stack := (d : Int) :: st.stack } :=
  run_cons_next code (stepInstr_digit hd st)

lemma pushes_digit {d : Nat} (hd : d ≤ 9) :
    Pushes [Char.ofNat (0x61 + d)] (d : Int) := by
  intro st t
  simpa using run_digit hd t st

lemma run_add (code : List Char) (a b : Int) (s : List Int) (hp : Int → Int)
    (op : List Int) :
    run ('A' :: code) ⟨b :: a :: s, hp, op⟩ = run code ⟨(a + b) :: s, hp, op⟩ :=
  run_cons_next code (by simp +decide [stepInstr, binArith])

lemma run_mul (code : List Char) (a b : Int) (s : List Int) (hp : Int → Int)
    (op : List Int) :
    run ('M' :: code) ⟨b :: a :: s, hp, op⟩ = run code ⟨(a * b) :: s, hp, op⟩ :=
  run_cons_next code (by simp +decide [stepInstr, binArith])

lemma pushes_add {s₁ s₂ : List Char} {x y : Int}
    (h₁ : Pushes s₁ x) (h₂ : Pushes s₂ y) :
    Pushes (s₁ ++ s₂ ++ ['A']) (x + y) := by
  rintro ⟨sk, hp, op⟩ t
  have e : s₁ ++ s₂ ++ ['A'] ++ t = s₁ ++ (s₂ ++ ('A' :: t)) := by simp
  rw [e, h₁, h₂]
  exact run_add t x y sk hp op

lemma pushes_mul {s₁ s₂ : List Char} {x y : Int}
    (h₁ : Pushes s₁ x) (h₂ : Pushes s₂ y) :
    Pushes (s₁ ++ s₂ ++ ['M']) (x * y) := by
  rintro ⟨sk, hp, op⟩ t
  have e : s₁ ++ s₂ ++ ['M'] ++ t = s₁ ++ (s₂ ++ ('M' :: t)) := by simp
  rw [e, h₁, h₂]
  exact run_mul t x y sk hp op

/-! ## Facts about `factorise` and `compress_factors` -/

lemma findFactorF_some {n : Nat} :
    ∀ fuel j i, findFactorF n j fuel = some i → j ≤ i ∧ i ≤ natSqrt n ∧ n % i = 0 := by
  intro fuel
  induction fuel with
  | zero => intro j i h; simp [findFactorF] at h
  | succ fuel ih =>
    intro j i h
    rw [findFactorF] at h
    split at h
    · split at h
      · obtain rfl : j = i := by injection h
        refine ⟨le_rfl, by assumption, by assumption⟩
      · have := ih (j + 1) i h
        exact ⟨by omega, this.2.1, this.2.2⟩
    · exact absurd h (by simp)

lemma findFactor_some {n j i : Nat} (h : findFactor n j = some i) :
    j ≤ i ∧ i ≤ natSqrt n ∧ n % i = 0 :=
  findFactorF_some _ _ _ h

lemma factoriseF_nil {fuel n j : Nat} (h : n ≤ 1) : factoriseF fuel n j = [] := by
  cases fuel <;> simp [factoriseF, h]

lemma listProd_eq_prod (l : List Nat) : listProd l = l.prod :=
  (List.prod_eq_foldl (l := l)).symm

lemma listProd_cons (a : Nat) (l : List Nat) : listProd (a :: l) = a * listProd l := by
  simp [listProd_eq_prod]

lemma listProd_append (l₁ l₂ : List Nat) :
    listProd (l₁ ++ l₂) = listProd l₁ * listProd l₂ := by
  simp [listProd_eq_prod]

lemma listProd_pos {l : List Nat} (h : ∀ x ∈ l, 1 ≤ x) : 1 ≤ listProd l := by
  induction l with
  | nil => simp [listProd]
  | cons a l ih =>
    rw [listProd_cons]
    have ha := h a (by simp)
    have := ih (fun x hx => h x (by simp [hx]))
    exact Nat.one_le_iff_ne_zero.mpr (by positivity)

lemma listProd_nil : listProd [] = 1 := rfl

lemma factoriseF_facts :
    ∀ fuel n j, 2 ≤ j → 2 ≤ n → n ≤ fuel →
      listProd (factoriseF fuel n j) = n
      ∧ (∀ x ∈ factoriseF fuel n j, 2 ≤ x)
      ∧ factoriseF fuel n j ≠ [] := by
  intro fuel
  induction fuel with
  | zero => intro n j _ hn hf; omega
  | succ fuel ih =>
    intro n j hj hn hf
    cases hff : findFactor n j with
    | none =>
      have heq : factoriseF (fuel + 1) n j = [n] := by
        rw [factoriseF, if_neg (by omega : ¬ n ≤ 1), hff]
      rw [heq]
      refine ⟨by simp [listProd_cons, listProd_nil], ?_, by simp⟩
      intro x hx
      simp at hx
      omega
    | some i =>
      obtain ⟨hji, _, hmod⟩ := findFactor_some hff
      have heq : factoriseF (fuel + 1) n j = i :: factoriseF fuel (n / i) i := by
        rw [factoriseF, if_neg (by omega : ¬ n ≤ 1), hff]
      have hi2 : 2 ≤ i := le_trans hj hji
      have hidvd : i ∣ n := Nat.dvd_of_mod_eq_zero hmod
      have hin : i ≤ n := Nat.le_of_dvd (by omega) hidvd
      have hmul : i * (n / i) = n := Nat.mul_div_cancel' hidvd
      rw [heq]
      by_cases hq1 : n / i ≤ 1
      · have hq0 : 1 ≤ n / i := (Nat.one_le_div_iff (by omega)).mpr hin
        have hq : n / i = 1 := by omega
        have hni : n = i := by rw [← hmul, hq, mul_one]
        rw [factoriseF_nil hq1]
        refine ⟨by simp [listProd_cons, listProd_nil, hni], ?_, by simp⟩
        intro x hx
        simp at hx
        omega
      · have h2q : 2 ≤ n / i := by omega
        have hflt : n / i ≤ fuel := by
          have : n / i < n := Nat.div_lt_self (by omega) (by omega)
          omega
        obtain ⟨hp, hm, _⟩ := ih (n / i) i hi2 h2q hflt
        refine ⟨by rw [listProd_cons, hp, hmul], ?_, by simp⟩
        intro x hx
        rcases List.mem_cons.mp hx with rfl | hx'
        · exact hi2
        · exact hm x hx'

lemma compressGo_spec :
    ∀ (l temp out : List Nat),
      (∀ x ∈ temp, 1 ≤ x) → (∀ x ∈ out, 1 ≤ x) → (∀ x ∈ l, 1 ≤ x) →
      listProd (compressGo l temp out).1 * listProd (compressGo l temp out).2
          = listProd out * listProd temp * listProd l
      ∧ (∀ x ∈ (compressGo l temp out).1, 1 ≤ x)
      ∧ (∀ x ∈ (compressGo l temp out).2, 1 ≤ x)
      ∧ (∀ g, (g ∈ (compressGo l temp out).1 ∨ g ∈ (compressGo l temp out).2) →
            g ∈ out ∨ g ∣ listProd temp * listProd l)
      ∧ ((temp ≠ [] ∨ l ≠ []) → (compressGo l temp out).2 ≠ []) := by
  intro l
  induction l with
  | nil =>
    intro temp out htemp hout _
    simp only [compressGo]
    refine ⟨by rw [listProd_nil, mul_one], hout, htemp, ?_, ?_⟩
    · intro g hg
      rcases hg with hg | hg
      · exact Or.inl hg
      · right
        rw [listProd_nil, mul_one, listProd_eq_prod]
        exact List.dvd_prod hg
    · intro h
      rcases h with h | h
      · exact h
      · exact absurd rfl h
  | cons f rest ih =>
    intro temp out htemp hout hl
    have hf1 : 1 ≤ f := hl f (by simp)
    have hrest : ∀ x ∈ rest, 1 ≤ x := fun x hx => hl x (by simp [hx])
    rw [compressGo]
    split
    · -- flush: compressGo rest [f] (out ++ [listProd temp])
      have hm1 : 1 ≤ listProd temp := listProd_pos htemp
      obtain ⟨hP, hO, hT, hD, hN⟩ := ih [f] (out ++ [listProd temp])
        (by intro x hx; simp at hx; omega)
        (by intro x hx
            rcases List.mem_append.mp hx with h | h
            · exact hout x h
            · simp at h; omega)
        hrest
      refine ⟨?_, hO, hT, ?_, fun _ => hN (Or.inl (by simp))⟩
      · rw [hP]
        simp only [listProd_append, listProd_cons, listProd_nil]
        ring
      · intro g hg
        rcases hD g hg with hg' | hg'
        · rcases List.mem_append.mp hg' with h | h
          · exact Or.inl h
          · simp at h
            subst h
            right
            simp only [listProd_cons]
            exact dvd_mul_right _ _
        · right
          simp only [listProd_cons, listProd_nil, mul_one] at hg'
          simp only [listProd_cons]
          exact hg'.trans (dvd_mul_left _ _)
    · -- keep: compressGo rest (temp ++ [f]) out
      obtain ⟨hP, hO, hT, hD, hN⟩ := ih (temp ++ [f]) out
        (by intro x hx
            rcases List.mem_append.mp hx with h | h
            · exact htemp x h
            · simp at h; omega)
        hout hrest
      refine ⟨?_, hO, hT, ?_, fun _ => hN (Or.inl (by simp))⟩
      · rw [hP]
        simp only [listProd_append, listProd_cons, listProd_nil]
        ring
      · intro g hg
        rcases hD g hg with hg' | hg'
        · exact Or.inl hg'
        · right
          simp only [listProd_append, listProd_cons, listProd_nil, mul_one] at hg'
          simp only [listProd_cons]
          have e : listProd temp * (f * listProd rest)
              = listProd temp * f * listProd rest := by ring
          rw [e]
          exact hg'

lemma compress_factors_spec (l : List Nat) (hl : ∀ x ∈ l, 1 ≤ x) :
    listProd (compress_factors l) = listProd l
    ∧ (∀ g ∈ compress_factors l, 1 ≤ g ∧ g ∣ listProd l)
    ∧ (l ≠ [] → compress_factors l ≠ []) := by
  obtain ⟨hP, hO, hT, hD, hN⟩ := compressGo_spec l [] [] (by simp) (by simp) hl
  rw [listProd_nil, mul_one, one_mul] at hP
  have hD' : ∀ g, (g ∈ (compressGo l [] []).1 ∨ g ∈ (compressGo l [] []).2) →
      g ∣ listProd l := by
    intro g hg
    rcases hD g hg with h | h
    · simp at h
    · rwa [listProd_nil, one_mul] at h
  rw [compress_factors]
  split
  · refine ⟨?_, ?_, fun _ => by simp⟩
    · rw [listProd_append, listProd_cons, listProd_nil, mul_one, hP]
    · intro g hg
      rcases List.mem_append.mp hg with h | h
      · exact ⟨hO g h, hD' g (Or.inl h)⟩
      · simp at h
        subst h
        refine ⟨listProd_pos hT, ?_⟩
        rw [← hP]
        exact dvd_mul_left _ _
  · refine ⟨by rw [listProd_append, hP], ?_, ?_⟩
    · intro g hg
      rcases List.mem_append.mp hg with h | h
      · exact ⟨hO g h, hD' g (Or.inl h)⟩
      · exact ⟨hT g h, hD' g (Or.inr h)⟩
    · intro hlne
      have := hN (Or.inr hlne)
      intro hc
      rcases List.append_eq_nil.mp hc with ⟨_, h2⟩
      exact this h2

/-! ## Correctness of the numeric encoder -/

lemma numLoop_tail (rec : Int → List Char) :
    ∀ (gs : List Nat), (∀ g ∈ gs, EmitOk rec g) →
      ∀ (v : Int) (sk : List Int) (hp : Int → Int) (op : List Int) (t : List Char),
        run (numLoop rec gs false ++ t) ⟨v :: sk, hp, op⟩
          = run t ⟨(v * listProd gs) :: sk, hp, op⟩ := by
  intro gs
  induction gs with
  | nil =>
    intro _ v sk hp op t
    simp [numLoop, listProd_nil]
  | cons g gs ihg =>
    intro hok v sk hp op t
    have hg := hok g (by simp)
    have e : numLoop rec (g :: gs) false ++ t
        = (if g ≤ 9 then [Char.ofNat (0x61 + g)]
           else if g ≤ 18 then rec (g : Int)
           else Char.ofNat (0x61 + 1) :: (rec ((g : Int) - 1) ++ ['A']))
          ++ ('M' :: (numLoop rec gs false ++ t)) := by
      simp [numLoop]
    rw [e, hg, run_mul, ihg (fun x hx => hok x (by simp [hx]))]
    rw [listProd_cons]
    push_cast
    ring_nf

lemma numLoop_head (rec : Int → List Char) (g : Nat) (gs : List Nat)
    (hok : ∀ x ∈ g :: gs, EmitOk rec x) :
    Pushes (numLoop rec (g :: gs) true) ((listProd (g :: gs) : Nat) : Int) := by
  rintro ⟨sk, hp, op⟩ t
  have hg := hok g (by simp)
  have e : numLoop rec (g :: gs) true ++ t
      = (if g ≤ 9 then [Char.ofNat (0x61 + g)]
         else if g ≤ 18 then rec (g : Int)
         else Char.ofNat (0x61 + 1) :: (rec ((g : Int) - 1) ++ ['A']))
        ++ (numLoop rec gs false ++ t) := by
    simp [numLoop]
  rw [e, hg, numLoop_tail rec gs (fun x hx => hok x (by simp [hx]))]
  rw [listProd_cons]
  push_cast
  ring_nf

theorem numF_pushes :
    ∀ (fuel : Nat) (i : Int), 0 ≤ i → i < (fuel : Int) → Pushes (numF fuel i) i := by
  intro fuel
  induction fuel with
  | zero =>
    intro i h0 h1
    exfalso
    simp at h1
    omega
  | succ fuel ih =>
    intro i h0 hlt
    rw [numF]
    split
    · -- i ≤ 9: single digit
      rename_i h9
      rw [show ((0x61 : Int) + i).toNat = 0x61 + i.toNat by omega]
      have := pushes_digit (show i.toNat ≤ 9 by omega)
      rwa [Int.toNat_of_nonneg h0] at this
    · split
      · -- 10 ≤ i ≤ 18: 9 + (i - 9)
        rename_i h9 h18
        rw [show ((0x61 : Int) + (i - 9)).toNat = 0x61 + (i - 9).toNat by omega]
        have e : [Char.ofNat (0x61 + 9), Char.ofNat (0x61 + (i - 9).toNat), 'A']
            = [Char.ofNat (0x61 + 9)] ++ [Char.ofNat (0x61 + (i - 9).toNat)] ++ ['A'] := rfl
        rw [e]
        have p1 := pushes_digit (d := 9) (by norm_num)
        have p2 := pushes_digit (d := (i - 9).toNat) (by omega)
        have := pushes_add p1 p2
        rwa [show ((9 : Nat) : Int) + ((i - 9).toNat : Int) = i by omega] at this
      · -- i ≥ 19: factor loop
        rename_i h9 h18
        have h19 : 19 ≤ i := by omega
        have hn19 : 19 ≤ i.toNat := by omega
        obtain ⟨hprodF, hmemF, hneF⟩ :=
          factoriseF_facts i.toNat i.toNat 2 (by norm_num) (by omega) le_rfl
        obtain ⟨hprodC, hmemC, hneC⟩ :=
          compress_factors_spec (factorise i.toNat)
            (fun x hx => by have := hmemF x hx; omega)
        rw [show factorise i.toNat = factoriseF i.toNat i.toNat 2 from rfl] at hneC hprodC hmemC
        have hgs_ne : compress_factors (factoriseF i.toNat i.toNat 2) ≠ [] := hneC hneF
        have hprod : listProd (compress_factors (factoriseF i.toNat i.toNat 2)) = i.toNat :=
          hprodC.trans hprodF
        have hEmit : ∀ g ∈ compress_factors (factoriseF i.toNat i.toNat 2),
            EmitOk (numF fuel) g := by
          intro g hg
          obtain ⟨hg1, hgdvd⟩ := hmemC g hg
          rw [hprodF] at hgdvd
          have hgle : g ≤ i.toNat := Nat.le_of_dvd (by omega) hgdvd
          have hfuel : i.toNat ≤ fuel := by omega
          rw [EmitOk]
          split
          · exact pushes_digit (by assumption)
          · split
            · exact ih (g : Int) (by positivity) (by rename_i hga hgb; omega)
            · rename_i hga hgb
              have e : Char.ofNat (0x61 + 1) :: (numF fuel ((g : Int) - 1) ++ ['A'])
                  = [Char.ofNat (0x61 + 1)] ++ numF fuel ((g : Int) - 1) ++ ['A'] := by
                simp
              rw [e]
              have p1 := pushes_digit (d := 1) (by norm_num)
              have p2 := ih ((g : Int) - 1) (by omega) (by omega)
              have := pushes_add p1 p2
              rwa [show ((1 : Nat) : Int) + ((g : Int) - 1) = (g : Int) by omega] at this
        rcases hgs : compress_factors (factoriseF i.toNat i.toNat 2) with _ | ⟨g, gs⟩
        · exact absurd hgs hgs_ne
        · rw [hgs] at hEmit hprod
          have := numLoop_head (numF fuel) g gs hEmit
          rw [hprod, Int.toNat_of_nonneg h0] at this
          rw [show factorise i.toNat = factoriseF i.toNat i.toNat 2 from rfl, hgs]
          exact this

theorem num_pushes (i : Int) (h0 : 0 ≤ i) : Pushes (num i) i :=
  numF_pushes (i.toNat + 1) i h0 (by omega)

/-- Characters of the numeric encoder's output, for nonnegative input. -/
lemma numLoop_chars (rec : Int → List Char)
    (hrec : ∀ (j : Int), 0 ≤ j → ∀ c ∈ rec j, c ∈ numAlphabet) :
    ∀ (gs : List Nat) (first : Bool), ∀ c ∈ numLoop rec gs first, c ∈ numAlphabet := by
  intro gs
  induction gs with
  | nil => intro first c hc; simp [numLoop] at hc
  | cons g gs ihg =>
    intro first c hc
    rw [numLoop] at hc
    rcases List.mem_append.mp hc with hc' | hc'
    · rcases List.mem_append.mp hc' with hc'' | hc''
      · -- the factor emission
        split at hc''
        · rename_i hg9
          simp at hc''
          subst hc''
          interval_cases g <;> decide
        · split at hc''
          · exact hrec _ (by positivity) _ hc''
          · rcases List.mem_cons.mp hc'' with rfl | hc3
            · decide
            · rcases List.mem_append.mp hc3 with hc4 | hc4
              · rename_i hga hgb
                exact hrec _ (by omega) _ hc4
              · simp at hc4
                subst hc4
                decide
      · -- the "M" separator
        rcases first with _ | _ <;> simp at hc''
        · subst hc''
          decide
    · exact ihg false c hc'

lemma numF_chars :
    ∀ fuel (i : Int), 0 ≤ i → ∀ c ∈ numF fuel i, c ∈ numAlphabet := by
  intro fuel
  induction fuel with
  | zero => intro i _ c hc; simp [numF] at hc
  | succ fuel ih =>
    intro i h0 c hc
    rw [numF] at hc
    split at hc
    · rename_i h9
      rw [show ((0x61 : Int) + i).toNat = 0x61 + i.toNat by omega] at hc
      simp at hc
      subst hc
      have : i.toNat ≤ 9 := by omega
      set d := i.toNat
      interval_cases d <;> decide
    · split at hc
      · rename_i h9 h18
        rw [show ((0x61 : Int) + (i - 9)).toNat = 0x61 + (i - 9).toNat by omega] at hc
        rcases List.mem_cons.mp hc with rfl | hc'
        · decide
        · rcases List.mem_cons.mp hc' with rfl | hc''
          · have : (i - 9).toNat ≤ 9 := by omega
            set d := (i - 9).toNat
            interval_cases d <;> decide
          · simp at hc''
            subst hc''
            decide
      · exact numLoop_chars (numF fuel) ih _ true c hc

lemma num_chars (i : Int) (h0 : 0 ≤ i) : ∀ c ∈ num i, c ∈ numAlphabet :=
  numF_chars _ _ h0

/-- C1: for every integer `n` in `[0, 10000]`, executing `num n` on an empty
VM stack (under the §6 VM semantics `run`) terminates leaving exactly one
value on the stack, equal to `n`; and the returned string contains only
characters from `{a..j, A, M}`. -/
theorem c1_num_encoder_correct (n : Nat) (hn : n ≤ 10000) :
    run (num (n : Int)) initState
        = some { initState with stack := [(n : Int)] }
    ∧ ∀ c ∈ num (n : Int), c ∈ numAlphabet := by
  constructor
  · have h := num_pushes (n : Int) (by positivity) initState []
    simpa [run] using h
  · exact num_chars _ (by positivity)

theorem c1_num_encoder_correct_witness :
    (42 : Nat) ≤ 10000
    ∧ (run (num ((42 : Nat) : Int)) initState
          = some { initState with stack := [((42 : Nat) : Int)] }
        ∧ ∀ c ∈ num ((42 : Nat) : Int), c ∈ numAlphabet) :=
  ⟨by norm_num, c1_num_encoder_correct 42 (by norm_num)⟩

/-- C3: executing a comparison operator's synthesis suffix on a stack whose
top two values are the left operand `a` (below) and the right operand `b`
(on top) terminates and leaves exactly one value: `1` if the relation holds
between `a` and `b`, else `0`. -/
theorem c3_compare_suffix_correct (op : CmpOp) (a b : Int)
    (hp : Int → Int) (out : List Int) :
    run (cmpSuffix op) ⟨[b, a], hp, out⟩
      = some ⟨[if cmpRel op a b then 1 else 0], hp, out⟩ := by
  have hJ : stepInstr 'J' ⟨[b, a], hp, out⟩ = .next ⟨[(a - b).sign], hp, out⟩ := by
    simp +decide [stepInstr, binArith]
  have hneg : a < b → (a - b).sign = -1 := fun h =>
    Int.sign_eq_neg_one_iff_neg.mpr (by omega)
  have hzero : a = b → (a - b).sign = 0 := fun h =>
    Int.sign_eq_zero_iff_zero.mpr (by omega)
  have hpos : b < a → (a - b).sign = 1 := fun h =>
    Int.sign_eq_one_iff_pos.mpr (by omega)
  cases op <;> rcases lt_trichotomy a b with h | h | h <;>
    simp only [cmpSuffix] <;>
    rw [run_cons_next _ hJ] <;>
    [rw [hneg h]; rw [hzero h]; rw [hpos h];
     rw [hneg h]; rw [hzero h]; rw [hpos h];
     rw [hneg h]; rw [hzero h]; rw [hpos h];
     rw [hneg h]; rw [hzero h]; rw [hpos h];
     rw [hneg h]; rw [hzero h]; rw [hpos h];
     rw [hneg h]; rw [hzero h]; rw [hpos h]] <;>
    simp +decide [run, stepInstr, binArith, cmpRel] <;>
    omega

/-! ## C7: the three allocators -/

/-- C7: `alloc_global` assigns `VARIABLE_OFFSET + |globals|` and raises a
capacity error (leaving the state unchanged) iff that offset is
`≥ VARIABLE_OFFSET + MAX_VARIABLES`; `alloc_local` assigns
`VARIABLE_OFFSET + |globals| + |locals|` under the same rule; `alloc_array`
assigns `ARRAY_OFFSET + Σ prior sizes` and raises iff the sum plus the new
size exceeds `MAX_ARRAY`. -/
theorem c7_allocators_correct (st : TState) (nm : String) (size : Nat) :
    (VARIABLE_OFFSET + st.globals.length ≥ VARIABLE_OFFSET + MAX_VARIABLES →
      alloc_global st nm = (st, some (.fail ("Failed to allocate global variable "
        ++ nm ++ ". Try increasing MAX_VARIABLES?"))))
    ∧ (VARIABLE_OFFSET + st.globals.length < VARIABLE_OFFSET + MAX_VARIABLES →
      alloc_global st nm = ({ st with
        globals := dictInsert nm (VARIABLE_OFFSET + st.globals.length) st.globals }, none))
    ∧ (VARIABLE_OFFSET + st.globals.length + st.locals.length
          ≥ VARIABLE_OFFSET + MAX_VARIABLES →
      alloc_local st nm = (st, some (.fail ("Failed to allocate local variable "
        ++ nm ++ ". Try increasing MAX_VARIABLES?"))))
    ∧ (VARIABLE_OFFSET + st.globals.length + st.locals.length
          < VARIABLE_OFFSET + MAX_VARIABLES →
      alloc_local st nm = ({ st with
        locals := dictInsert nm
          (VARIABLE_OFFSET + st.globals.length + st.locals.length) st.locals }, none))
    ∧ (arraysAllocated st + size > MAX_ARRAY →
      alloc_array st nm size
        = (st, some (.fail "Cannot allocate array space. Increase MAX_ARRAY")))
    ∧ (arraysAllocated st + size ≤ MAX_ARRAY →
      alloc_array st nm size = ({ st with
        arrays := dictInsert nm ⟨ARRAY_OFFSET + arraysAllocated st, size⟩ st.arrays },
        none)) := by
  refine ⟨?_, ?_, ?_, ?_, ?_, ?_⟩
  · intro h
    rw [alloc_global, if_pos h]
  · intro h
    rw [alloc_global, if_neg (by omega)]
  · intro h
    rw [alloc_local, if_pos h]
  · intro h
    rw [alloc_local, if_neg (by omega)]
  · intro h
    rw [alloc_array, if_pos h]
  · intro h
    rw [alloc_array, if_neg (by omega)]

theorem c7_allocators_correct_witness :
    alloc_global initTState "x"
      = ({ initTState with globals := dictInsert "x" 0 [] }, none)
    ∧ alloc_local { initTState with globals := [("x", 0)] } "y"
      = ({ initTState with globals := [("x", 0)], locals := dictInsert "y" 1 [] },
         none)
    ∧ alloc_array initTState "arr" 129
      = (initTState, some (.fail "Cannot allocate array space. Increase MAX_ARRAY"))
    ∧ alloc_array initTState "arr" 4
      = ({ initTState with arrays := dictInsert "arr" ⟨32, 4⟩ [] }, none) := by
  refine ⟨?_, ?_, ?_, ?_⟩
  · exact (c7_allocators_correct initTState "x" 0).2.1 (by decide)
  · exact (c7_allocators_correct { initTState with globals := [("x", 0)] } "y" 0).2.2.2.1
      (by decide)
  · exact (c7_allocators_correct initTState "arr" 129).2.2.2.2.1 (by decide)
  · exact (c7_allocators_correct initTState "arr" 4).2.2.2.2.2 (by decide)

/-! ## C8: the If lowering -/

/-- C8: for every `If` node with test `t`, body `B` and else-branch `E`
whose parts lower successfully, the emitted lowering is exactly
`t ++ num (len b) ++ CONDITIONAL_JUMP ++ b ++ e`, where `e` is the lowering
of `E` and `b` is the lowering of `B` followed by `num (len e) ++ GO` —
also when `E` is empty, in which case `b` still ends with `num 0 ++ GO`. -/
theorem c8_if_lowering (st : TState) (test : Node) (body orelse : List Node)
    (tS bS eS : List Char)
    (ht : translate_node st test = .ok tS)
    (hb : translate_nodes st body = .ok bS)
    (he : translate_nodes st orelse = .ok eS) :
    translate_node st (.ifStmt test body orelse)
      = .ok (tS ++ num ((bS ++ num (eS.length : Nat) ++ [GO]).length : Nat)
             ++ [CONDITIONAL_JUMP] ++ (bS ++ num (eS.length : Nat) ++ [GO]) ++ eS) := by
  rw [show translate_node st (.ifStmt test body orelse) = (do
      let t ← translate_node st test
      let b ← translate_nodes st body
      let e ← translate_nodes st orelse
      Except.ok (t ++ num ((b ++ num (e.length : Nat) ++ [GO]).length : Nat)
        ++ [CONDITIONAL_JUMP] ++ (b ++ num (e.length : Nat) ++ [GO]) ++ e))
    from rfl, ht, hb, he]
  rfl

theorem c8_if_lowering_witness :
    translate_node initTState (.num 1) = .ok ['b']
    ∧ translate_nodes initTState [.exprStmt (.num 2)] = .ok ['c']
    ∧ translate_nodes initTState [] = .ok []
    ∧ translate_node initTState (.ifStmt (.num 1) [.exprStmt (.num 2)] [])
      = .ok (['b'] ++ num (((['c'] ++ num ((0 : Nat)) ++ [GO]).length : Nat))
             ++ [CONDITIONAL_JUMP] ++ (['c'] ++ num ((0 : Nat)) ++ [GO]) ++ []) :=
  ⟨by rfl, by rfl, by rfl,
   c8_if_lowering initTState (.num 1) [.exprStmt (.num 2)] [] ['b'] ['c'] []
     (by rfl) (by rfl) (by rfl)⟩

/-! ## C5: the prologue -/

lemma okBind {α β : Type} (a : α) (f : α → Except Err β) :
    (do let x ← Except.ok a; f x) = f a := rfl

lemma errorBind {α β : Type} (e : Err) (f : α → Except Err β) :
    (do let x ← Except.error e; f x) = Except.error e := rfl

lemma padRight_length (s : List Char) (w : Nat) :
    (padRight s w).length = max s.length w := by
  simp [padRight]
  omega

/-- C5: when phases 1–2 succeed, (a) if any function exists and the padded
prologue fits, a successful compile's output begins with a prologue of
length exactly `FUNCTION_OFFSET_START`; (b) if the encoding of the total
function length plus the `GO` exceeds `FUNCTION_OFFSET_START` characters,
`translate` raises a capacity error instead; (c) if no function exists, no
prologue is emitted at all (the output is just the top-level lowering). -/
theorem c5_prologue_correct (tree : List Node) (st : TState)
    (h12 : stage12 tree = .ok st) :
    (st.functions.length ≠ 0 →
      ((num (totalFuncLength st : Nat)).length + 1 ≤ FUNCTION_OFFSET_START →
        ∀ out, translate tree = .ok out →
          ∃ rest,
            out = (padRight (num (totalFuncLength st : Nat))
                    (FUNCTION_OFFSET_START - 1) ++ [GO]) ++ rest
            ∧ (padRight (num (totalFuncLength st : Nat))
                    (FUNCTION_OFFSET_START - 1) ++ [GO]).length
                = FUNCTION_OFFSET_START)
      ∧ ((num (totalFuncLength st : Nat)).length + 1 > FUNCTION_OFFSET_START →
          translate tree
            = .error (.fail "JMP instruction too long. Increase FUNCTION_OFFSET_START")))
    ∧ (st.functions.length = 0 → translate tree = translateTopLevel st tree) := by
  have h1 : translate tree
      = (do
          let pro ← emitPrologue st
          let body ← translateTopLevel st tree
          Except.ok (pro ++ funcBodies st ++ body)) := by
    rw [translate, h12, okBind]
  constructor
  · intro hne
    constructor
    · intro hfit out hout
      have hlen : (padRight (num (totalFuncLength st : Nat))
          (FUNCTION_OFFSET_START - 1) ++ [GO]).length = FUNCTION_OFFSET_START := by
        rw [List.length_append, padRight_length]
        simp [FUNCTION_OFFSET_START] at hfit ⊢
        omega
      have hP : emitPrologue st
          = .ok (padRight (num (totalFuncLength st : Nat))
                  (FUNCTION_OFFSET_START - 1) ++ [GO]) := by
        rw [emitPrologue, if_pos hne, if_neg (by omega)]
      rw [h1, hP, okBind] at hout
      cases htl : translateTopLevel st tree with
      | error e =>
        rw [htl, errorBind] at hout
        exact Except.noConfusion hout
      | ok body =>
        rw [htl, okBind] at hout
        simp at hout
        exact ⟨funcBodies st ++ body, by rw [← hout]; simp, hlen⟩
    · intro hbig
      have hP : emitPrologue st
          = .error (.fail "JMP instruction too long. Increase FUNCTION_OFFSET_START") := by
        have : (padRight (num (totalFuncLength st : Nat))
            (FUNCTION_OFFSET_START - 1) ++ [GO]).length > FUNCTION_OFFSET_START := by
          rw [List.length_append, padRight_length]
          simp [FUNCTION_OFFSET_START] at hbig ⊢
          omega
        rw [emitPrologue, if_pos hne, if_pos this]
      rw [h1, hP, errorBind]
  · intro h0
    have hfn : st.functions = [] := List.length_eq_zero.mp h0
    have hP : emitPrologue st = .ok [] := by
      rw [emitPrologue, if_neg (by omega)]
    have hfb : funcBodies st = [] := by
      rw [funcBodies, hfn]
      rfl
    rw [h1, hP, okBind, hfb]
    cases htl : translateTopLevel st tree with
    | error e => rw [errorBind]
    | ok body => rw [okBind]; simp

theorem c5_prologue_correct_witness :
    stage12 [Node.functionDef "add" ["a", "b"]
        [.assign [.name "c"] (.binOp .add (.name "a") (.name "b")), .ret (.name "c")],
      .exprStmt (.call (.name "add") [.num 2, .num 3])]
      = .ok ⟨[], [], [],
          [("add", ⟨10, some "bKaKaEbEAcKcER".data⟩)], 24⟩
    ∧ (padRight (num ((totalFuncLength
          ⟨[], [], [], [("add", ⟨10, some "bKaKaEbEAcKcER".data⟩)], 24⟩ : Nat)))
        (FUNCTION_OFFSET_START - 1) ++ [GO]).length = FUNCTION_OFFSET_START
    ∧ translate [Node.exprStmt (.call (.name "putchar") [.num 72])]
        = translateTopLevel ⟨[], [], [], [], 10⟩
            [Node.exprStmt (.call (.name "putchar") [.num 72])] := by
  refine ⟨by rfl, ?_, ?_⟩
  · obtain ⟨-, -, h2⟩ :=
      ((c5_prologue_correct
          [Node.functionDef "add" ["a", "b"]
            [.assign [.name "c"] (.binOp .add (.name "a") (.name "b")), .ret (.name "c")],
           .exprStmt (.call (.name "add") [.num 2, .num 3])]
          ⟨[], [], [], [("add", ⟨10, some "bKaKaEbEAcKcER".data⟩)], 24⟩
          (by rfl)).1 (by decide)).1 (by decide)
        "jfA      GbKaKaEbEAcKcERcdjbAC".data (by rfl)
    exact h2
  · exact (c5_prologue_correct
      [Node.exprStmt (.call (.name "putchar") [.num 72])] ⟨[], [], [], [], 10⟩
      (by rfl)).2 (by decide)

/-! ## Dictionary and allocator lemmas -/

lemma dictLookup_insert_self {α : Type} (k : String) (v : α) (l : List (String × α)) :
    dictLookup k (dictInsert k v l) = some v := by
  induction l with
  | nil => simp [dictInsert, dictLookup]
  | cons p rest ih =>
    by_cases h : k = p.1
    · rw [dictInsert, if_pos h, dictLookup, if_pos rfl]
    · rw [dictInsert, if_neg h, dictLookup, if_neg h]
      exact ih

lemma dictLookup_insert_ne {α : Type} {k x : String} (v : α) (l : List (String × α))
    (h : k ≠ x) : dictLookup k (dictInsert x v l) = dictLookup k l := by
  induction l with
  | nil => simp [dictInsert, dictLookup, h]
  | cons p rest ih =>
    by_cases hx : x = p.1
    · rw [dictInsert, if_pos hx, dictLookup, dictLookup, ← hx, if_neg h, if_neg (hx ▸ h)]
    · rw [dictInsert, if_neg hx, dictLookup, dictLookup]
      split
      · rfl
      · exact ih

lemma dictInsert_fresh {α : Type} {k : String} (v : α) {l : List (String × α)}
    (h : dictLookup k l = none) : dictInsert k v l = l ++ [(k, v)] := by
  induction l with
  | nil => rfl
  | cons p rest ih =>
    rw [dictLookup] at h
    rw [dictInsert]
    split
    · rename_i hk
      rw [if_pos hk] at h
      exact absurd h (by simp)
    · rename_i hk
      rw [if_neg hk] at h
      rw [ih h]
      simp

lemma dictLookup_append_none {α : Type} {k : String} {l l' : List (String × α)}
    (h : dictLookup k l = none) : dictLookup k (l ++ l') = dictLookup k l' := by
  induction l with
  | nil => simp
  | cons p rest ih =>
    rw [dictLookup] at h
    rw [List.cons_append, dictLookup]
    split
    · rename_i hk
      rw [if_pos hk] at h
      exact absurd h (by simp)
    · rename_i hk
      rw [if_neg hk] at h
      exact ih h

lemma setFuncOps_append_fresh (fname : String) (ops : List Char) :
    ∀ (l : List (String × FuncEntry)), dictLookup fname l = none → ∀ (e : FuncEntry),
    setFuncOps fname ops (l ++ [(fname, e)])
      = l ++ [(fname, { e with opcodes := some ops })] := by
  intro l
  induction l with
  | nil => intro _ e; simp [setFuncOps]
  | cons p rest ih =>
    intro h e
    obtain ⟨k', e'⟩ := p
    rw [dictLookup] at h
    by_cases hk : fname = k'
    · rw [if_pos hk] at h
      exact absurd h (by simp)
    · rw [if_neg hk] at h
      rw [List.cons_append, setFuncOps, if_neg (fun hc => hk hc.symm), ih h e]
      simp

lemma alloc_global_ok {st st' : TState} {a : String}
    (h : alloc_global st a = (st', none)) :
    st' = { st with
            globals := dictInsert a (VARIABLE_OFFSET + st.globals.length) st.globals }
    ∧ st.globals.length < MAX_VARIABLES := by
  rw [alloc_global] at h
  split at h
  · exact absurd h (by simp)
  · rename_i hc
    refine ⟨(Prod.mk.injEq _ _ _ _).mp h |>.1.symm, by omega⟩

lemma alloc_local_ok {st st' : TState} {a : String}
    (h : alloc_local st a = (st', none)) :
    st' = { st with
            locals := dictInsert a
              (VARIABLE_OFFSET + st.globals.length + st.locals.length) st.locals }
    ∧ st.globals.length + st.locals.length < MAX_VARIABLES := by
  rw [alloc_local] at h
  split at h
  · exact absurd h (by simp)
  · rename_i hc
    refine ⟨(Prod.mk.injEq _ _ _ _).mp h |>.1.symm, by omega⟩

lemma alloc_array_ok {st st' : TState} {a : String} {size : Nat}
    (h : alloc_array st a size = (st', none)) :
    st' = { st with
            arrays := dictInsert a ⟨ARRAY_OFFSET + arraysAllocated st, size⟩ st.arrays }
    ∧ arraysAllocated st + size ≤ MAX_ARRAY := by
  rw [alloc_array] at h
  split at h
  · exact absurd h (by simp)
  · rename_i hc
    refine ⟨(Prod.mk.injEq _ _ _ _).mp h |>.1.symm, by omega⟩

lemma allocLocals_pres :
    ∀ (args : List String) (st st' : TState), allocLocals st args = .ok st' →
      st'.globals = st.globals ∧ st'.arrays = st.arrays
        ∧ st'.functions = st.functions ∧ st'.funcs_len = st.funcs_len := by
  intro args
  induction args with
  | nil =>
    intro st st' h
    simp [allocLocals] at h
    subst h
    exact ⟨rfl, rfl, rfl, rfl⟩
  | cons a rest ih =>
    intro st st' h
    rw [allocLocals] at h
    cases hc : alloc_local st a with
    | mk st2 oe =>
      rw [hc] at h
      cases oe with
      | some e => exact Except.noConfusion h
      | none =>
        obtain ⟨hst2, -⟩ := alloc_local_ok hc
        have := ih st2 st' h
        rw [hst2] at this
        exact this

lemma allocDiscovered_pres :
    ∀ (dl : List (String × Nat)) (args : List String) (st st' : TState),
      allocDiscovered st args dl = .ok st' →
      st'.globals = st.globals ∧ st'.arrays = st.arrays
        ∧ st'.functions = st.functions ∧ st'.funcs_len = st.funcs_len := by
  intro dl
  induction dl with
  | nil =>
    intro args st st' h
    simp [allocDiscovered] at h
    subst h
    exact ⟨rfl, rfl, rfl, rfl⟩
  | cons p rest ih =>
    intro args st st' h
    rw [allocDiscovered] at h
    split at h
    · exact ih args st st' h
    · split at h
      · exact Except.noConfusion h
      · cases hc : alloc_local st p.1 with
        | mk st2 oe =>
          rw [hc] at h
          cases oe with
          | some e => exact Except.noConfusion h
          | none =>
            obtain ⟨hst2, -⟩ := alloc_local_ok hc
            have := ih args st2 st' h
            rw [hst2] at this
            exact this

lemma allocGlobalsAndArrays_pres :
    ∀ (dl : List (String × Nat)) (st st' : TState),
      allocGlobalsAndArrays st dl = .ok st' →
      st'.locals = st.locals ∧ st'.functions = st.functions
        ∧ st'.funcs_len = st.funcs_len := by
  intro dl
  induction dl with
  | nil =>
    intro st st' h
    simp [allocGlobalsAndArrays] at h
    subst h
    exact ⟨rfl, rfl, rfl⟩
  | cons p rest ih =>
    intro st st' h
    rw [allocGlobalsAndArrays] at h
    split at h
    · cases hc : alloc_global st p.1 with
      | mk st2 oe =>
        rw [hc] at h
        cases oe with
        | some e => exact Except.noConfusion h
        | none =>
          obtain ⟨hst2, -⟩ := alloc_global_ok hc
          have := ih st2 st' h
          rw [hst2] at this
          exact this
    · cases hc : alloc_array st p.1 p.2 with
      | mk st2 oe =>
        rw [hc] at h
        cases oe with
        | some e => exact Except.noConfusion h
        | none =>
          obtain ⟨hst2, -⟩ := alloc_array_ok hc
          have := ih st2 st' h
          rw [hst2] at this
          exact this

/-- The core of `translate_function` as the function table sees it: under a
fresh name, the new table is the old one with the entry appended (offset =
the old `funcs_len`), and `funcs_len` advances by the body length. -/
lemma translate_function_spec (st : TState) (fname : String) (args : List String)
    (body : List Node) (st' : TState)
    (hfresh : dictLookup fname st.functions = none)
    (h : translate_function st fname args body = .ok st') :
    ∃ ops, st'.functions = st.functions ++ [(fname, ⟨st.funcs_len, some ops⟩)]
      ∧ st'.funcs_len = st.funcs_len + ops.length
      ∧ st'.locals = [] := by
  simp only [translate_function] at h
  cases h2 : allocLocals
      { st with functions := dictInsert fname ⟨st.funcs_len, none⟩ st.functions } args with
  | error e => rw [h2, errorBind] at h; exact Except.noConfusion h
  | ok st2 =>
    rw [h2, okBind] at h
    cases h3 : argsPrologue st2 args.reverse with
    | error e => rw [h3, errorBind] at h; exact Except.noConfusion h
    | ok pro =>
      rw [h3, okBind] at h
      cases h4 : allocDiscovered st2 args
          (countNode true [] (.functionDef fname args body)) with
      | error e => rw [h4, errorBind] at h; exact Except.noConfusion h
      | ok st3 =>
        rw [h4, okBind] at h
        cases h5 : translate_nodes st3 body with
        | error e => rw [h5, errorBind] at h; exact Except.noConfusion h
        | ok bodyS =>
          rw [h5, okBind] at h
          have hst' : st' = { st3 with
              locals := [],
              functions := setFuncOps fname (pro ++ bodyS ++ [RETURN]) st3.functions,
              funcs_len := st3.funcs_len + (pro ++ bodyS ++ [RETURN]).length } := by
            cases h
            rfl
          obtain ⟨-, -, hf2, hl2⟩ := allocLocals_pres _ _ _ h2
          obtain ⟨-, -, hf3, hl3⟩ := allocDiscovered_pres _ _ _ _ h4
          refine ⟨pro ++ bodyS ++ [RETURN], ?_, ?_, by rw [hst']⟩
          · rw [hst']
            show setFuncOps fname (pro ++ bodyS ++ [RETURN]) st3.functions = _
            rw [hf3, hf2]
            show setFuncOps fname (pro ++ bodyS ++ [RETURN])
                (dictInsert fname ⟨st.funcs_len, none⟩ st.functions) = _
            rw [dictInsert_fresh _ hfresh, setFuncOps_append_fresh _ _ _ hfresh]
          · rw [hst']
            show st3.funcs_len + (pro ++ bodyS ++ [RETURN]).length = _
            rw [hl3, hl2]

lemma funcTableOk_snoc {fns : List (String × FuncEntry)} {flen : Nat}
    (hok : FuncTableOk fns flen) (f : String) (ops : List Char) :
    FuncTableOk (fns ++ [(f, ⟨flen, some ops⟩)]) (flen + ops.length) := by
  obtain ⟨h1, h2, h3⟩ := hok
  refine ⟨?_, ?_, ?_⟩
  · rw [List.map_append, List.sum_append]
    simp
    omega
  · intro x hx
    rcases List.mem_append.mp hx with hx' | hx'
    · exact h2 x hx'
    · simp at hx'
      rw [hx']
      rfl
  · intro k hk
    have hk' : k < fns.length + 1 := by simpa using hk
    by_cases hlt : k < fns.length
    · rw [List.get_append _ hlt, List.take_append_of_le_length (by omega)]
      exact h3 k hlt
    · have hke : k = fns.length := by omega
      subst hke
      rw [List.take_append_of_le_length le_rfl, List.take_length]
      have hget : (fns ++ [(f, (⟨flen, some ops⟩ : FuncEntry))]).get
          ⟨fns.length, hk⟩ = (f, ⟨flen, some ops⟩) := by
        rw [List.get_eq_getElem, List.getElem_append_right le_rfl]
        simp
      rw [hget, h1]

lemma translateFunctions_inv :
    ∀ (tree : List Node) (st st' : TState),
      (funcNames tree).Nodup →
      (∀ f ∈ funcNames tree, dictLookup f st.functions = none) →
      FuncTableOk st.functions st.funcs_len →
      translateFunctions st tree = .ok st' →
      FuncTableOk st'.functions st'.funcs_len := by
  intro tree
  induction tree with
  | nil =>
    intro st st' _ _ hok h
    simp [translateFunctions] at h
    subst h
    exact hok
  | cons n rest ih =>
    intro st st' hnodup hfresh hok h
    cases n
    case functionDef fname args body =>
      rw [translateFunctions] at h
      cases hf : translate_function st fname args body with
      | error e => rw [hf, errorBind] at h; exact Except.noConfusion h
      | ok st2 =>
        rw [hf, okBind] at h
        have hmem : fname ∈ funcNames (Node.functionDef fname args body :: rest) := by
          simp [funcNames]
        have hffresh := hfresh fname hmem
        obtain ⟨ops, hfns, hflen, -⟩ :=
          translate_function_spec st fname args body st2 hffresh hf
        have hnames : funcNames (Node.functionDef fname args body :: rest)
            = fname :: funcNames rest := by
          simp [funcNames]
        rw [hnames] at hnodup hfresh
        refine ih st2 st' (List.nodup_cons.mp hnodup).2 ?_ ?_ h
        · intro g hg
          have hgfresh := hfresh g (by simp [hg])
          have hgne : g ≠ fname := by
            rintro rfl
            exact (List.nodup_cons.mp hnodup).1 hg
          rw [hfns, dictLookup_append_none hgfresh, dictLookup, if_neg hgne]
          rfl
        · rw [hfns, hflen]
          exact funcTableOk_snoc hok fname ops
    all_goals
      simp only [translateFunctions] at h
      refine ih st st' ?_ ?_ hok h
      · simpa [funcNames] using hnodup
      · intro f hf
        exact hfresh f (by simpa [funcNames] using hf)

/-! ## C6: offset consistency -/

/-- C6: after a successful discovery + function-compilation phase over a
module whose function names are distinct, the offset of the `k`-th function
in the table is `FUNCTION_OFFSET_START` plus the sum of the lengths of the
bodies of the functions before it; and the running `funcs_len` is
`FUNCTION_OFFSET_START` plus the total body length. -/
theorem c6_offset_consistency (tree : List Node) (st : TState)
    (hnodup : (funcNames tree).Nodup)
    (h12 : stage12 tree = .ok st) :
    (∀ k (hk : k < st.functions.length),
      (st.functions.get ⟨k, hk⟩).2.offset
        = FUNCTION_OFFSET_START
          + ((st.functions.take k).map (fun f => (f.2.opcodes.getD []).length)).sum)
    ∧ st.funcs_len = FUNCTION_OFFSET_START + totalFuncLength st := by
  rw [stage12] at h12
  cases halloc : allocGlobalsAndArrays initTState (countNodes false [] tree) with
  | error e => rw [halloc, errorBind] at h12; exact Except.noConfusion h12
  | ok st1 =>
    rw [halloc, okBind] at h12
    obtain ⟨-, hfn1, hfl1⟩ := allocGlobalsAndArrays_pres _ _ _ halloc
    have hok1 : FuncTableOk st1.functions st1.funcs_len := by
      rw [hfn1, hfl1]
      refine ⟨by simp [initTState], by simp [initTState], ?_⟩
      intro k hk
      simp [initTState] at hk
    have hfresh1 : ∀ f ∈ funcNames tree, dictLookup f st1.functions = none := by
      intro f _
      rw [hfn1]
      rfl
    obtain ⟨h1, -, h3⟩ := translateFunctions_inv tree st1 st hnodup hfresh1 hok1 h12
    exact ⟨h3, h1⟩

theorem c6_offset_consistency_witness :
    (funcNames [Node.functionDef "f" ["x"] [.ret (.name "x")],
                Node.functionDef "g" [] [.ret (.num 1)]]).Nodup
    ∧ (([("f", (⟨10, some "aKaER".data⟩ : FuncEntry)),
         ("g", (⟨15, some "bR".data⟩ : FuncEntry))].get ⟨1, by norm_num⟩).2.offset
        = FUNCTION_OFFSET_START
          + (([("f", (⟨10, some "aKaER".data⟩ : FuncEntry)),
              ("g", (⟨15, some "bR".data⟩ : FuncEntry))].take 1).map
              (fun f => (f.2.opcodes.getD []).length)).sum) := by
  constructor
  · decide
  · exact (c6_offset_consistency
      [Node.functionDef "f" ["x"] [.ret (.name "x")],
       Node.functionDef "g" [] [.ret (.num 1)]]
      ⟨[], [], [],
        [("f", ⟨10, some "aKaER".data⟩), ("g", ⟨15, some "bR".data⟩)], 17⟩
      (by decide) (by rfl)).1 1 (by norm_num)

/-! ## Lemmas about local allocation and the argument prologue -/

lemma dictLookup_setFuncOps_self (fname : String) (ops : List Char) :
    ∀ (l : List (String × FuncEntry)) (e : FuncEntry),
      dictLookup fname l = some e →
      dictLookup fname (setFuncOps fname ops l) = some { e with opcodes := some ops } := by
  intro l
  induction l with
  | nil => intro e h; exact Option.noConfusion h
  | cons p rest ih =>
    intro e h
    obtain ⟨k', e'⟩ := p
    rw [dictLookup] at h
    by_cases hk : fname = k'
    · rw [if_pos hk] at h
      rw [setFuncOps, if_pos hk.symm, dictLookup, if_pos hk]
      rw [Option.some.injEq] at h
      rw [h]
    · rw [if_neg hk] at h
      rw [setFuncOps, if_neg (fun hc => hk hc.symm), dictLookup, if_neg hk]
      exact ih e h

lemma allocLocals_fresh :
    ∀ (args : List String) (st st' : TState),
      args.Nodup → (∀ a ∈ args, dictLookup a st.locals = none) →
      allocLocals st args = .ok st' →
      st'.locals = st.locals
        ++ localsAfter (VARIABLE_OFFSET + st.globals.length + st.locals.length) args := by
  intro args
  induction args with
  | nil =>
    intro st st' _ _ h
    simp [allocLocals] at h
    subst h
    simp [localsAfter]
  | cons a rest ih =>
    intro st st' hnodup hfresh h
    rw [allocLocals] at h
    cases hc : alloc_local st a with
    | mk st2 oe =>
      rw [hc] at h
      cases oe with
      | some e => exact Except.noConfusion h
      | none =>
        obtain ⟨hst2, -⟩ := alloc_local_ok hc
        have hafresh : dictLookup a st.locals = none := hfresh a (by simp)
        have hlocals2 : st2.locals
            = st.locals ++ [(a, VARIABLE_OFFSET + st.globals.length + st.locals.length)] := by
          rw [hst2]
          exact dictInsert_fresh _ hafresh
        have hg2 : st2.globals = st.globals := by rw [hst2]
        have hrestfresh : ∀ x ∈ rest, dictLookup x st2.locals = none := by
          intro x hx
          rw [hlocals2, dictLookup_append_none (hfresh x (by simp [hx])), dictLookup]
          rw [if_neg (by rintro rfl; exact (List.nodup_cons.mp hnodup).1 hx)]
          rfl
        have hih := ih st2 st' (List.nodup_cons.mp hnodup).2 hrestfresh h
        rw [hih, hlocals2, hg2, localsAfter]
        have harg : VARIABLE_OFFSET + st.globals.length
              + (st.locals
                 ++ [(a, VARIABLE_OFFSET + st.globals.length + st.locals.length)]).length
            = VARIABLE_OFFSET + st.globals.length + st.locals.length + 1 := by
          simp only [List.length_append, List.length_cons, List.length_nil]
          omega
        rw [harg]
        simp

lemma localsAfter_lookup :
    ∀ (args : List String) (b : Nat), args.Nodup →
      ∀ k (hk : k < args.length),
        dictLookup (args.get ⟨k, hk⟩) (localsAfter b args) = some (b + k) := by
  intro args
  induction args with
  | nil => intro b _ k hk; simp at hk
  | cons a rest ih =>
    intro b hnodup k hk
    cases k with
    | zero =>
      show dictLookup a ((a, b) :: localsAfter (b + 1) rest) = some (b + 0)
      rw [dictLookup, if_pos rfl]
      simp
    | succ k =>
      show dictLookup (rest.get ⟨k, by simpa using hk⟩)
          ((a, b) :: localsAfter (b + 1) rest) = some (b + (k + 1))
      rw [dictLookup]
      rw [if_neg (by
        intro hc
        exact (List.nodup_cons.mp hnodup).1 (hc ▸ List.get_mem rest _ _))]
      rw [ih (b + 1) (List.nodup_cons.mp hnodup).2 k (by simpa using hk)]
      congr 1
      omega

lemma argsPrologue_rev :
    ∀ (l : List String) (st : TState) (b : Nat),
      (∀ k (hk : k < l.length),
        dictLookup (l.get ⟨k, hk⟩) st.locals = some (b + (l.length - 1 - k))) →
      argsPrologue st l = .ok (revPrologue b l.length) := by
  intro l
  induction l with
  | nil => intro st b _; rfl
  | cons a rest ih =>
    intro st b hlk
    have h0 : dictLookup a st.locals = some (b + rest.length) := by
      have := hlk 0 (by simp)
      simp at this
      simpa using this
    have hrest : argsPrologue st rest = .ok (revPrologue b rest.length) := by
      apply ih
      intro k hk
      have hk1 : k + 1 < (a :: rest).length := by simpa using Nat.succ_lt_succ hk
      have := hlk (k + 1) hk1
      rw [show (a :: rest).get ⟨k + 1, hk1⟩ = rest.get ⟨k, hk⟩ from rfl] at this
      rw [this]
      congr 2
      simp
      omega
    simp only [argsPrologue, h0, hrest, okBind]
    show Except.ok _ = _
    rw [show (a :: rest).length = rest.length + 1 from rfl, revPrologue]

lemma allocDiscovered_locals_mono :
    ∀ (dl : List (String × Nat)) (args : List String) (st st' : TState),
      allocDiscovered st args dl = .ok st' →
      ∀ a v, a ∈ args → dictLookup a st.locals = some v →
        dictLookup a st'.locals = some v := by
  intro dl
  induction dl with
  | nil =>
    intro args st st' h a v _ hv
    simp [allocDiscovered] at h
    subst h
    exact hv
  | cons p rest ih =>
    intro args st st' h a v ha hv
    rw [allocDiscovered] at h
    split at h
    · exact ih args st st' h a v ha hv
    · split at h
      · exact Except.noConfusion h
      · cases hc : alloc_local st p.1 with
        | mk st2 oe =>
          rw [hc] at h
          cases oe with
          | some e => exact Except.noConfusion h
          | none =>
            obtain ⟨hst2, -⟩ := alloc_local_ok hc
            refine ih args st2 st' h a v ha ?_
            rw [hst2]
            show dictLookup a (dictInsert p.1 _ st.locals) = some v
            rw [dictLookup_insert_ne _ _ (by rintro rfl; rename_i hnot _; exact hnot ha)]
            exact hv

/-- Decomposition of a successful `translate_function` into its phases. -/
lemma translate_function_parts (st : TState) (fname : String) (args : List String)
    (body : List Node) (st' : TState)
    (h : translate_function st fname args body = .ok st') :
    ∃ st2 pro st3 bodyS,
      allocLocals { st with functions := dictInsert fname ⟨st.funcs_len, none⟩ st.functions }
        args = .ok st2
      ∧ argsPrologue st2 args.reverse = .ok pro
      ∧ allocDiscovered st2 args (countNode true [] (.functionDef fname args body)) = .ok st3
      ∧ translate_nodes st3 body = .ok bodyS
      ∧ st' = { st3 with
          locals := [],
          functions := setFuncOps fname (pro ++ bodyS ++ [RETURN]) st3.functions,
          funcs_len := st3.funcs_len + (pro ++ bodyS ++ [RETURN]).length } := by
  simp only [translate_function] at h
  cases h2 : allocLocals
      { st with functions := dictInsert fname ⟨st.funcs_len, none⟩ st.functions } args with
  | error e => rw [h2, errorBind] at h; exact Except.noConfusion h
  | ok st2 =>
    rw [h2, okBind] at h
    cases h3 : argsPrologue st2 args.reverse with
    | error e => rw [h3, errorBind] at h; exact Except.noConfusion h
    | ok pro =>
      rw [h3, okBind] at h
      cases h4 : allocDiscovered st2 args
          (countNode true [] (.functionDef fname args body)) with
      | error e => rw [h4, errorBind] at h; exact Except.noConfusion h
      | ok st3 =>
        rw [h4, okBind] at h
        cases h5 : translate_nodes st3 body with
        | error e => rw [h5, errorBind] at h; exact Except.noConfusion h
        | ok bodyS =>
          rw [h5, okBind] at h
          refine ⟨st2, pro, st3, bodyS, rfl, h3, h4, h5, ?_⟩
          cases h
          rfl

/-! ## C9: function compilation -/

/-- C9: compiling `def fname(p1, …, pk)` with `g` globals and an empty
locals table allocates parameter `p_i` at offset `g + (i - 1)` in
declaration order; the emitted body begins with the reverse-order prologue
`num (g + k - 1) K … num g K`, ends with `RETURN`, and the locals table is
empty again afterwards. -/
theorem c9_function_compilation (st : TState) (fname : String) (args : List String)
    (body : List Node) (st' : TState)
    (hloc : st.locals = []) (hnodup : args.Nodup)
    (h : translate_function st fname args body = .ok st') :
    ∃ stMid bodyS,
      translate_nodes stMid body = .ok bodyS
      ∧ (∀ k (hk : k < args.length),
          dictLookup (args.get ⟨k, hk⟩) stMid.locals
            = some (VARIABLE_OFFSET + st.globals.length + k))
      ∧ dictLookup fname st'.functions
          = some ⟨st.funcs_len,
              some (revPrologue (VARIABLE_OFFSET + st.globals.length) args.length
                    ++ bodyS ++ [RETURN])⟩
      ∧ st'.locals = [] := by
  obtain ⟨st2, pro, st3, bodyS, h2, h3, h4, h5, hst'⟩ :=
    translate_function_parts st fname args body st' h
  have hfresh1 : ∀ a ∈ args,
      dictLookup a
        ({ st with
           functions := dictInsert fname ⟨st.funcs_len, none⟩ st.functions } : TState).locals
        = none := by
    intro a _
    show dictLookup a st.locals = none
    rw [hloc]
    rfl
  have hl2 := allocLocals_fresh args _ st2 hnodup hfresh1 h2
  have hl2' : st2.locals = localsAfter (VARIABLE_OFFSET + st.globals.length) args := by
    rw [hl2]
    show st.locals ++ localsAfter (VARIABLE_OFFSET + st.globals.length + st.locals.length)
        args = _
    rw [hloc]
    simp
  have hlk2 : ∀ k (hk : k < args.length),
      dictLookup (args.get ⟨k, hk⟩) st2.locals
        = some (VARIABLE_OFFSET + st.globals.length + k) := by
    intro k hk
    rw [hl2']
    exact localsAfter_lookup args _ hnodup k hk
  have hpro : pro = revPrologue (VARIABLE_OFFSET + st.globals.length) args.length := by
    have hrev := argsPrologue_rev args.reverse st2
        (VARIABLE_OFFSET + st.globals.length) ?_
    · rw [h3] at hrev
      have := (Except.ok.injEq _ _).mp hrev
      rw [this]
      congr 1
      simp
    · intro k hk
      have hk' : args.length - 1 - k < args.length := by
        have : 0 < args.length := by
          by_contra hc
          simp at hc
          rw [hc] at hk
          simp at hk
        omega
      rw [List.get_reverse' args ⟨k, hk⟩ (by simpa using hk')]
      rw [hlk2 (args.length - 1 - k) (by simpa using hk')]
      congr 2
      simp
  have hlk3 : ∀ k (hk : k < args.length),
      dictLookup (args.get ⟨k, hk⟩) st3.locals
        = some (VARIABLE_OFFSET + st.globals.length + k) := by
    intro k hk
    exact allocDiscovered_locals_mono _ args st2 st3 h4 _ _
      (args.get_mem _ _) (hlk2 k hk)
  obtain ⟨-, -, hf3, -⟩ := allocDiscovered_pres _ _ _ _ h4
  obtain ⟨-, -, hf2, -⟩ := allocLocals_pres _ _ _ h2
  have hlookup : dictLookup fname st'.functions
      = some ⟨st.funcs_len, some (pro ++ bodyS ++ [RETURN])⟩ := by
    rw [hst']
    show dictLookup fname (setFuncOps fname (pro ++ bodyS ++ [RETURN]) st3.functions)
        = _
    rw [hf3, hf2]
    show dictLookup fname (setFuncOps fname (pro ++ bodyS ++ [RETURN])
        (dictInsert fname ⟨st.funcs_len, none⟩ st.functions)) = _
    rw [dictLookup_setFuncOps_self fname _ _ _
      (dictLookup_insert_self fname ⟨st.funcs_len, none⟩ st.functions)]
  refine ⟨st3, bodyS, h5, hlk3, ?_, by rw [hst']⟩
  rw [hlookup, hpro]

theorem c9_function_compilation_witness :
    (initTState.locals = [] ∧ (["a", "b"] : List String).Nodup
      ∧ translate_function initTState "add" ["a", "b"]
          [.assign [.name "c"] (.binOp .add (.name "a") (.name "b")), .ret (.name "c")]
        = .ok ⟨[], [], [], [("add", ⟨10, some "bKaKaEbEAcKcER".data⟩)], 24⟩)
    ∧ (∃ stMid bodyS,
        translate_nodes stMid
          [Node.assign [.name "c"] (.binOp .add (.name "a") (.name "b")),
           Node.ret (.name "c")] = .ok bodyS
        ∧ (∀ k (hk : k < (["a", "b"] : List String).length),
            dictLookup ((["a", "b"] : List String).get ⟨k, hk⟩) stMid.locals
              = some (VARIABLE_OFFSET + initTState.globals.length + k))
        ∧ dictLookup "add"
            (⟨[], [], [], [("add", ⟨10, some "bKaKaEbEAcKcER".data⟩)], 24⟩ : TState).functions
            = some ⟨initTState.funcs_len,
                some (revPrologue (VARIABLE_OFFSET + initTState.globals.length)
                      (["a", "b"] : List String).length ++ bodyS ++ [RETURN])⟩
        ∧ (⟨[], [], [], [("add", ⟨10, some "bKaKaEbEAcKcER".data⟩)], 24⟩ : TState).locals
            = []) :=
  ⟨⟨rfl, by decide, by rfl⟩,
   c9_function_compilation initTState "add" ["a", "b"]
     [.assign [.name "c"] (.binOp .add (.name "a") (.name "b")), .ret (.name "c")]
     ⟨[], [], [], [("add", ⟨10, some "bKaKaEbEAcKcER".data⟩)], 24⟩
     rfl (by decide) (by rfl)⟩

/-! ## C10: early table entry and call resolution -/

/-- C10: a function's table entry, carrying its final offset, exists (with
no body yet) in the state under which its own body is lowered — so a
recursive call resolves and emits `num offset ++ CALL`, while a call to a
name not yet in the table (e.g. a function defined later in the source)
raises the undefined-function `TranslationError`. -/
theorem c10_call_resolution :
    (∀ (st : TState) (f : String) (args : List Node) (entry : FuncEntry),
      dictLookup f st.functions = some entry →
      f ≠ "putchar" → f ≠ "putint" → f ≠ "puts" →
      translate_node st (.call (.name f) args)
        = (translate_nodes st args).map
            (fun s => s ++ num (entry.offset : Nat) ++ [CALL]))
    ∧ (∀ (st : TState) (g : String) (args : List Node),
      dictLookup g st.functions = none →
      g ≠ "putchar" → g ≠ "putint" → g ≠ "puts" →
      translate_node st (.call (.name g) args)
        = .error (.error ("Tried to call undefined function " ++ g)))
    ∧ (∀ (st : TState) (fname : String) (fargs : List String) (fbody : List Node)
        (st' : TState),
      translate_function st fname fargs fbody = .ok st' →
      ∃ stMid bodyS,
        dictLookup fname stMid.functions = some ⟨st.funcs_len, none⟩
        ∧ translate_nodes stMid fbody = .ok bodyS) := by
  refine ⟨?_, ?_, ?_⟩
  · intro st f args entry hf h1 h2 h3
    rw [show translate_node st (.call (.name f) args)
        = (if (f = "putchar" ∨ f = "putint" ∨ f = "puts")
              ∨ (dictLookup f st.functions).isSome then do
            let argsS ← translate_nodes st args
            if f = "putchar" then .ok (argsS ++ [PRINT_ASCII])
            else if f = "putint" then .ok (argsS ++ [PRINT_NUM])
            else if f = "puts" then .ok argsS
            else
              match dictLookup f st.functions with
              | some entry => .ok (argsS ++ num (entry.offset : Nat) ++ [CALL])
              | none => .error (.pyError "KeyError: functions")
          else .error (.error ("Tried to call undefined function " ++ f)))
      from rfl]
    rw [if_pos (Or.inr (by rw [hf]; rfl))]
    cases htns : translate_nodes st args with
    | error e => rw [errorBind]; rfl
    | ok argsS =>
      rw [okBind, if_neg h1, if_neg h2, if_neg h3]
      simp only [hf]
      rfl
  · intro st g args hg h1 h2 h3
    rw [show translate_node st (.call (.name g) args)
        = (if (g = "putchar" ∨ g = "putint" ∨ g = "puts")
              ∨ (dictLookup g st.functions).isSome then do
            let argsS ← translate_nodes st args
            if g = "putchar" then .ok (argsS ++ [PRINT_ASCII])
            else if g = "putint" then .ok (argsS ++ [PRINT_NUM])
            else if g = "puts" then .ok argsS
            else
              match dictLookup g st.functions with
              | some entry => .ok (argsS ++ num (entry.offset : Nat) ++ [CALL])
              | none => .error (.pyError "KeyError: functions")
          else .error (.error ("Tried to call undefined function " ++ g)))
      from rfl]
    rw [if_neg (by
      simp [h1, h2, h3, hg])]
  · intro st fname fargs fbody st' h
    obtain ⟨st2, pro, st3, bodyS, h2, h3, h4, h5, -⟩ :=
      translate_function_parts st fname fargs fbody st' h
    obtain ⟨-, -, hf3, -⟩ := allocDiscovered_pres _ _ _ _ h4
    obtain ⟨-, -, hf2, -⟩ := allocLocals_pres _ _ _ h2
    refine ⟨st3, bodyS, ?_, h5⟩
    rw [hf3, hf2]
    exact dictLookup_insert_self fname ⟨st.funcs_len, none⟩ st.functions

theorem c10_call_resolution_witness :
    (dictLookup "f" ([("f", (⟨10, none⟩ : FuncEntry))]) = some ⟨10, none⟩
      ∧ translate_node ⟨[], [], [], [("f", ⟨10, none⟩)], 10⟩
          (.call (.name "f") [])
        = (translate_nodes ⟨[], [], [], [("f", ⟨10, none⟩)], 10⟩ []).map
            (fun s => s ++ num ((10 : Nat)) ++ [CALL]))
    ∧ (dictLookup "g" (([] : List (String × FuncEntry))) = none
      ∧ translate_node initTState (.call (.name "g") [])
        = .error (.error ("Tried to call undefined function " ++ "g")))
    ∧ (translate_function initTState "f" [] [.ret (.num 1)]
        = .ok ⟨[], [], [], [("f", ⟨10, some "bR".data⟩)], 12⟩
      ∧ ∃ stMid bodyS,
          dictLookup "f" stMid.functions = some ⟨initTState.funcs_len, none⟩
          ∧ translate_nodes stMid [Node.ret (.num 1)] = .ok bodyS) :=
  ⟨⟨by rfl,
    c10_call_resolution.1 ⟨[], [], [], [("f", ⟨10, none⟩)], 10⟩ "f" [] ⟨10, none⟩
      (by rfl) (by decide) (by decide) (by decide)⟩,
   ⟨by rfl,
    c10_call_resolution.2.1 initTState "g" [] (by rfl)
      (by decide) (by decide) (by decide)⟩,
   ⟨by rfl,
    c10_call_resolution.2.2 initTState "f" [] [.ret (.num 1)]
      ⟨[], [], [], [("f", ⟨10, some "bR".data⟩)], 12⟩ (by rfl)⟩⟩

/-! ## C2 and C4: alphabet closure and stack neutrality -/

lemma numAlphabet_sub_opcode : ∀ c ∈ numAlphabet, c ∈ opcodeAlphabet := by decide

lemma num_alpha {i : Int} (h0 : 0 ≤ i) : ∀ c ∈ num i, c ∈ opcodeAlphabet :=
  fun c hc => numAlphabet_sub_opcode c (num_chars i h0 c hc)

lemma append_alpha {a b : List Char}
    (ha : ∀ c ∈ a, c ∈ opcodeAlphabet) (hb : ∀ c ∈ b, c ∈ opcodeAlphabet) :
    ∀ c ∈ a ++ b, c ∈ opcodeAlphabet := by
  intro c hc
  rcases List.mem_append.mp hc with h | h
  exacts [ha c h, hb c h]

lemma read_var_alpha {st : TState} {nm : String} {s : List Char}
    (h : read_var st nm = .ok s) : ∀ c ∈ s, c ∈ opcodeAlphabet := by
  rw [read_var] at h
  cases hl : dictLookup nm st.locals with
  | some off =>
    rw [hl] at h
    cases h
    exact append_alpha (num_alpha (by positivity)) (by decide)
  | none =>
    rw [hl] at h
    cases hg : dictLookup nm st.globals with
    | some off =>
      rw [hg] at h
      cases h
      exact append_alpha (num_alpha (by positivity)) (by decide)
    | none => rw [hg] at h; cases h

lemma write_var_alpha {st : TState} {nm : String} {s : List Char}
    (h : write_var st nm = .ok s) : ∀ c ∈ s, c ∈ opcodeAlphabet := by
  rw [write_var] at h
  cases hl : dictLookup nm st.locals with
  | some off =>
    rw [hl] at h
    cases h
    exact append_alpha (num_alpha (by positivity)) (by decide)
  | none =>
    rw [hl] at h
    cases hg : dictLookup nm st.globals with
    | some off =>
      rw [hg] at h
      cases h
      exact append_alpha (num_alpha (by positivity)) (by decide)
    | none => rw [hg] at h; cases h

lemma sumEff_cons (c : Char) (s : List Char) :
    sumEff (c :: s)
      = (stack_effect c).bind (fun e => (sumEff s).bind (fun r => some (e + r))) := rfl

lemma sumEff_some_append {a b : List Char} {x y : Int}
    (ha : sumEff a = some x) (hb : sumEff b = some y) :
    sumEff (a ++ b) = some (x + y) := by
  induction a generalizing x with
  | nil =>
    simp [sumEff] at ha
    subst ha
    simpa using hb
  | cons c a ih =>
    rw [sumEff_cons] at ha
    rw [List.cons_append, sumEff_cons]
    cases he : stack_effect c with
    | none => simp [he] at ha
    | some e =>
      cases hsa : sumEff a with
      | none => simp [he, hsa] at ha
      | some r =>
        simp [he, hsa] at ha
        simp [he, ih hsa]
        omega

lemma stack_effect_digit {d : Nat} (hd : d ≤ 9) :
    stack_effect (Char.ofNat (0x61 + d)) = some 1 := by
  interval_cases d <;> decide

lemma sumEff_digit {d : Nat} (hd : d ≤ 9) :
    sumEff [Char.ofNat (0x61 + d)] = some 1 := by
  rw [sumEff_cons, stack_effect_digit hd]
  rfl

/-- Net effect of the `num` factor loop. -/
lemma sumEff_numLoop (rec : Int → List Char) :
    ∀ (gs : List Nat), (∀ g ∈ gs, EmitSum rec g) →
      sumEff (numLoop rec gs false) = some 0
      ∧ (gs ≠ [] → sumEff (numLoop rec gs true) = some 1) := by
  intro gs
  induction gs with
  | nil => exact fun _ => ⟨rfl, fun h => absurd rfl h⟩
  | cons g gs ih =>
    intro hok
    have emit : sumEff (if g ≤ 9 then [Char.ofNat (0x61 + g)]
        else if g ≤ 18 then rec (g : Int)
        else Char.ofNat (0x61 + 1) :: (rec ((g : Int) - 1) ++ ['A'])) = some 1 :=
      hok g (by simp)
    have ih' := ih (fun x hx => hok x (by simp [hx]))
    constructor
    · rw [numLoop]
      have hM : sumEff (['M'] ++ numLoop rec gs false) = some (-1) := by
        have := sumEff_some_append (show sumEff ['M'] = some (-1) by decide) ih'.1
        simpa using this
      have := sumEff_some_append emit hM
      simpa using this
    · intro _
      rw [numLoop]
      have := sumEff_some_append emit
        (show sumEff ([] ++ numLoop rec gs false) = some 0 by simpa using ih'.1)
      simpa using this

lemma numF_sum :
    ∀ (fuel : Nat) (i : Int), 0 ≤ i → i < (fuel : Int) →
      sumEff (numF fuel i) = some 1 := by
  intro fuel
  induction fuel with
  | zero =>
    intro i h0 h1
    exfalso
    simp at h1
    omega
  | succ fuel ih =>
    intro i h0 hlt
    rw [numF]
    split
    · rename_i h9
      rw [show ((0x61 : Int) + i).toNat = 0x61 + i.toNat by omega]
      exact sumEff_digit (by omega)
    · split
      · rename_i h9 h18
        rw [show ((0x61 : Int) + (i - 9)).toNat = 0x61 + (i - 9).toNat by omega]
        have e : [Char.ofNat (0x61 + 9), Char.ofNat (0x61 + (i - 9).toNat), 'A']
            = [Char.ofNat (0x61 + 9)] ++ ([Char.ofNat (0x61 + (i - 9).toNat)] ++ ['A']) := rfl
        rw [e]
        have h1 := sumEff_digit (d := 9) (by norm_num)
        have h2 := sumEff_digit (d := (i - 9).toNat) (by omega)
        have h3 := sumEff_some_append h2 (show sumEff ['A'] = some (-1) by decide)
        simpa using sumEff_some_append h1 (by simpa using h3)
      · rename_i h9 h18
        obtain ⟨hprodF, hmemF, hneF⟩ :=
          factoriseF_facts i.toNat i.toNat 2 (by norm_num) (by omega) le_rfl
        obtain ⟨-, hmemC, hneC⟩ :=
          compress_factors_spec (factorise i.toNat)
            (fun x hx => by have := hmemF x hx; omega)
        rw [show factorise i.toNat = factoriseF i.toNat i.toNat 2 from rfl] at hneC hmemC
        have hEmit : ∀ g ∈ compress_factors (factoriseF i.toNat i.toNat 2),
            EmitSum (numF fuel) g := by
          intro g hg
          obtain ⟨hg1, hgdvd⟩ := hmemC g hg
          rw [hprodF] at hgdvd
          have hgle : g ≤ i.toNat := Nat.le_of_dvd (by omega) hgdvd
          rw [EmitSum]
          split
          · exact sumEff_digit (by assumption)
          · split
            · exact ih (g : Int) (by positivity) (by rename_i hga hgb; omega)
            · rename_i hga hgb
              have e : Char.ofNat (0x61 + 1) :: (numF fuel ((g : Int) - 1) ++ ['A'])
                  = [Char.ofNat (0x61 + 1)] ++ (numF fuel ((g : Int) - 1) ++ ['A']) := rfl
              rw [e]
              have h1 := sumEff_digit (d := 1) (by norm_num)
              have h2 := sumEff_some_append
                (ih ((g : Int) - 1) (by omega) (by omega))
                (show sumEff ['A'] = some (-1) by decide)
              simpa using sumEff_some_append h1 (by simpa using h2)
        exact (sumEff_numLoop (numF fuel) _ hEmit).2 (hneC hneF)

lemma sumEff_num {i : Int} (h0 : 0 ≤ i) : sumEff (num i) = some 1 :=
  numF_sum _ _ h0 (by omega)
lemma translate_node_assign_name (st : TState) (tname : String) (value : Node)
    (hv : ∀ elts, value ≠ Node.list elts) :
    translate_node st (.assign [.name tname] value)
      = (do
          let valS ← translate_node st value
          let w ← write_var st tname
          Except.ok (valS ++ w)) := by
  cases value
  case list elts => exact (hv elts rfl).elim
  all_goals rfl

lemma translate_node_assign_sub (st : TState) (v : String) (sl : Node) (ctx : Bool)
    (value : Node) (hv : ∀ elts, value ≠ Node.list elts) :
    translate_node st (.assign [.subscript v sl ctx] value)
      = (do
          let valS ← translate_node st value
          let tgtS ← translate_node st (.subscript v sl ctx)
          Except.ok (valS ++ tgtS)) := by
  cases value
  case list elts => exact (hv elts rfl).elim
  all_goals rfl


set_option maxHeartbeats 2000000 in
lemma translate_node_alpha_aux : ∀ fuel : Nat,
    (∀ n : Node, sizeOf n ≤ fuel → ∀ (st : TState) (s : List Char),
       okNode n = true → translate_node st n = .ok s → ∀ c ∈ s, c ∈ opcodeAlphabet)
    ∧ (∀ ns : List Node, sizeOf ns ≤ fuel → ∀ (st : TState) (s : List Char),
       okNodes ns = true → translate_nodes st ns = .ok s → ∀ c ∈ s, c ∈ opcodeAlphabet)
    ∧ (∀ ns : List Node, sizeOf ns ≤ fuel →
       ∀ (st : TState) (off i : Nat) (s : List Char),
       okNodes ns = true → translate_list_assign st off i ns = .ok s →
       ∀ c ∈ s, c ∈ opcodeAlphabet) := by
  intro fuel
  induction fuel with
  | zero =>
    refine ⟨fun n hsz => absurd hsz ?_, fun ns hsz => absurd hsz ?_,
            fun ns hsz => absurd hsz ?_⟩
    · cases n <;> simp
    · cases ns <;> simp
    · cases ns <;> simp
  | succ fuel ih =>
    obtain ⟨ih1, ih2, ih3⟩ := ih
    refine ⟨?_, ?_, ?_⟩
    · intro n hsz st s hok h
      cases n with
      | name id =>
        rw [translate_node] at h
        exact read_var_alpha h
      | num m =>
        rw [translate_node] at h
        cases h
        rw [okNode] at hok
        exact num_alpha (of_decide_eq_true hok)
      | list elts =>
        rw [translate_node] at h
        exact absurd h (by simp)
      | subscript v sl store =>
        simp only [Node.subscript.sizeOf_spec] at hsz
        rw [translate_node] at h
        rw [okNode] at hok
        split at h
        · exact absurd h (by simp)
        · rename_i arr heq
          cases hidx : translate_node st sl with
          | error e => rw [hidx, errorBind] at h; exact absurd h (by simp)
          | ok idx =>
            rw [hidx, okBind] at h
            cases h
            exact append_alpha (append_alpha (append_alpha
              (num_alpha (Int.natCast_nonneg _))
              (ih1 sl (by omega) st idx hok hidx)) (by decide))
              (by cases store <;> decide)
      | binOp op l r =>
        simp only [Node.binOp.sizeOf_spec] at hsz
        rw [translate_node] at h
        rw [okNode, Bool.and_eq_true] at hok
        cases hls : translate_node st l with
        | error e => rw [hls, errorBind] at h; exact absurd h (by simp)
        | ok ls =>
          rw [hls, okBind] at h
          cases hrs : translate_node st r with
          | error e => rw [hrs, errorBind] at h; exact absurd h (by simp)
          | ok rs =>
            rw [hrs, okBind] at h
            cases h
            exact append_alpha (append_alpha (ih1 l (by omega) st ls hok.1 hls)
              (ih1 r (by omega) st rs hok.2 hrs)) (by cases op <;> decide)
      | boolOp op values =>
        simp only [Node.boolOp.sizeOf_spec] at hsz
        rw [translate_node] at h
        rw [okNode] at hok
        cases hvs : translate_nodes st values with
        | error e => rw [hvs, errorBind] at h; exact absurd h (by simp)
        | ok vs =>
          rw [hvs, okBind] at h
          cases h
          refine append_alpha (ih2 values (by omega) st vs hok hvs) ?_
          intro c hc
          rw [List.eq_of_mem_replicate hc]
          cases op <;> decide
      | assign targets value =>
        simp only [Node.assign.sizeOf_spec] at hsz
        simp only [okNode, Bool.and_eq_true] at hok
        rcases targets with _ | ⟨t1, _ | ⟨t2, ts⟩⟩
        · rw [translate_node] at h
          exact absurd h (by simp)
        · simp only [List.cons.sizeOf_spec, List.nil.sizeOf_spec] at hsz
          simp only [okNodes, Bool.and_eq_true] at hok
          have hdec : (∃ elts, value = Node.list elts)
              ∨ (∀ elts, value ≠ Node.list elts) := by
            cases value
            case list e => exact Or.inl ⟨e, rfl⟩
            all_goals exact Or.inr (fun elts he => by cases he)
          have htc : (∃ n, t1 = Node.name n)
              ∨ (∃ a b c, t1 = Node.subscript a b c)
              ∨ ∃ e, translate_node st (.assign [t1] value) = .error e := by
            cases t1
            case name n => exact Or.inl ⟨n, rfl⟩
            case subscript a b c => exact Or.inr (Or.inl ⟨a, b, c, rfl⟩)
            all_goals exact Or.inr (Or.inr (by cases value <;> exact ⟨_, rfl⟩))
          rcases htc with ⟨tname, rfl⟩ | ⟨v, sl, ctx, rfl⟩ | ⟨e, he⟩
          · rcases hdec with ⟨elts, rfl⟩ | hv
            · simp only [Node.list.sizeOf_spec] at hsz
              rw [translate_node] at h
              split at h
              · exact absurd h (by simp)
              · rename_i arr heqa
                have hoke : okNodes elts = true := by
                  have h2 := hok.2
                  rwa [okNode] at h2
                exact ih3 elts (by omega) st arr.offset 0 s hoke h
            · rw [translate_node_assign_name st tname value hv] at h
              cases hval : translate_node st value with
              | error e => rw [hval, errorBind] at h; exact absurd h (by simp)
              | ok vS =>
                rw [hval, okBind] at h
                cases hw : write_var st tname with
                | error e => rw [hw, errorBind] at h; exact absurd h (by simp)
                | ok w =>
                  rw [hw, okBind] at h
                  cases h
                  exact append_alpha (ih1 value (by omega) st vS hok.2 hval)
                    (write_var_alpha hw)
          · simp only [Node.subscript.sizeOf_spec] at hsz
            have hoksl : okNode (Node.subscript v sl ctx) = true := hok.1.1
            rcases hdec with ⟨elts, rfl⟩ | hv
            · rw [show translate_node st
                    (.assign [.subscript v sl ctx] (.list elts))
                  = .error (.pyError "AttributeError: id") from rfl] at h
              exact absurd h (by simp)
            · rw [translate_node_assign_sub st v sl ctx value hv] at h
              cases hval : translate_node st value with
              | error e => rw [hval, errorBind] at h; exact absurd h (by simp)
              | ok vS =>
                rw [hval, okBind] at h
                cases htgt : translate_node st (Node.subscript v sl ctx) with
                | error e => rw [htgt, errorBind] at h; exact absurd h (by simp)
                | ok tgtS =>
                  rw [htgt, okBind] at h
                  cases h
                  exact append_alpha (ih1 value (by omega) st vS hok.2 hval)
                    (ih1 (Node.subscript v sl ctx) (by simp; omega) st tgtS hoksl htgt)
          · rw [he] at h
            exact absurd h (by simp)
        · rw [translate_node] at h
          exact absurd h (by simp)
      | augAssign target op value =>
        simp only [Node.augAssign.sizeOf_spec] at hsz
        rw [translate_node] at h
        rw [okNode] at hok
        cases hr : read_var st target with
        | error e => rw [hr, errorBind] at h; exact absurd h (by simp)
        | ok r =>
          rw [hr, okBind] at h
          cases hv : translate_node st value with
          | error e => rw [hv, errorBind] at h; exact absurd h (by simp)
          | ok vS =>
            rw [hv, okBind] at h
            cases hw : write_var st target with
            | error e => rw [hw, errorBind] at h; exact absurd h (by simp)
            | ok w =>
              rw [hw, okBind] at h
              cases h
              exact append_alpha (append_alpha (append_alpha (read_var_alpha hr)
                (ih1 value (by omega) st vS hok hv)) (by cases op <;> decide))
                (write_var_alpha hw)
      | ifStmt test body orelse =>
        simp only [Node.ifStmt.sizeOf_spec] at hsz
        rw [translate_node] at h
        simp only [okNode, Bool.and_eq_true] at hok
        cases ht : translate_node st test with
        | error e => rw [ht, errorBind] at h; exact absurd h (by simp)
        | ok t =>
          rw [ht, okBind] at h
          cases hb : translate_nodes st body with
          | error e => rw [hb, errorBind] at h; exact absurd h (by simp)
          | ok b =>
            rw [hb, okBind] at h
            cases he : translate_nodes st orelse with
            | error e => rw [he, errorBind] at h; exact absurd h (by simp)
            | ok e =>
              rw [he, okBind] at h
              cases h
              exact append_alpha (append_alpha (append_alpha (append_alpha
                (ih1 test (by omega) st t hok.1 ht)
                (num_alpha (Int.natCast_nonneg _))) (by decide))
                (append_alpha (append_alpha (ih2 body (by omega) st b hok.2.1 hb)
                  (num_alpha (Int.natCast_nonneg _))) (by decide)))
                (ih2 orelse (by omega) st e hok.2.2 he)
      | compare left ops comparators =>
        simp only [Node.compare.sizeOf_spec] at hsz
        rw [translate_node] at h
        simp only [okNode, Bool.and_eq_true] at hok
        cases hl : translate_node st left with
        | error e => rw [hl, errorBind] at h; exact absurd h (by simp)
        | ok l =>
          rw [hl, okBind] at h
          split at h
          · exact absurd h (by simp)
          · split at h
            · exact absurd h (by simp)
            · rename_i cmp rest heqc
              simp only [List.cons.sizeOf_spec] at hsz
              simp only [okNodes, Bool.and_eq_true] at hok
              cases hr : translate_node st cmp with
              | error e => rw [hr, errorBind] at h; exact absurd h (by simp)
              | ok r =>
                rw [hr, okBind] at h
                split at h
                · exact absurd h (by simp)
                · split at h
                  · exact absurd h (by simp)
                  · rename_i op1 oprest heqo
                    cases h
                    exact append_alpha (append_alpha
                      (ih1 left (by omega) st l hok.1 hl)
                      (ih1 cmp (by omega) st r hok.2.1 hr))
                      (by cases op1 <;> decide)
      | call func args =>
        simp only [Node.call.sizeOf_spec] at hsz
        simp only [okNode, Bool.and_eq_true] at hok
        cases func
        case name fn =>
          rw [translate_node] at h
          split at h
          · cases hargs : translate_nodes st args with
            | error e => rw [hargs, errorBind] at h; exact absurd h (by simp)
            | ok argsS =>
              rw [hargs, okBind] at h
              have hargsAlpha := ih2 args (by omega) st argsS hok.2 hargs
              split at h
              · cases h; exact append_alpha hargsAlpha (by decide)
              · split at h
                · cases h; exact append_alpha hargsAlpha (by decide)
                · split at h
                  · cases h; exact hargsAlpha
                  · split at h
                    · rename_i entry heqe
                      cases h
                      exact append_alpha (append_alpha hargsAlpha
                        (num_alpha (Int.natCast_nonneg _))) (by decide)
                    · exact absurd h (by simp)
          · exact absurd h (by simp)
        all_goals simp [translate_node] at h
      | whileStmt test body orelse =>
        rw [okNode] at hok
        exact absurd hok (by simp)
      | exprStmt v =>
        simp only [Node.exprStmt.sizeOf_spec] at hsz
        rw [translate_node] at h
        rw [okNode] at hok
        exact ih1 v (by omega) st s hok h
      | ret v =>
        simp only [Node.ret.sizeOf_spec] at hsz
        rw [translate_node] at h
        rw [okNode] at hok
        exact ih1 v (by omega) st s hok h
      | functionDef f as b =>
        rw [translate_node] at h
        exact absurd h (by simp)
      | importFrom m =>
        rw [translate_node] at h
        exact absurd h (by simp)
    · intro ns hsz st s hok h
      cases ns with
      | nil =>
        rw [translate_nodes] at h
        cases h
        intro c hc
        simp at hc
      | cons n rest =>
        simp only [List.cons.sizeOf_spec] at hsz
        rw [translate_nodes] at h
        rw [okNodes, Bool.and_eq_true] at hok
        cases hn : translate_node st n with
        | error e => rw [hn, errorBind] at h; exact absurd h (by simp)
        | ok sn =>
          rw [hn, okBind] at h
          cases hr : translate_nodes st rest with
          | error e => rw [hr, errorBind] at h; exact absurd h (by simp)
          | ok sr =>
            rw [hr, okBind] at h
            cases h
            exact append_alpha (ih1 n (by omega) st sn hok.1 hn)
              (ih2 rest (by omega) st sr hok.2 hr)
    · intro ns hsz st off i s hok h
      cases ns with
      | nil =>
        rw [translate_list_assign] at h
        cases h
        intro c hc
        simp at hc
      | cons v vs =>
        simp only [List.cons.sizeOf_spec] at hsz
        rw [translate_list_assign] at h
        rw [okNodes, Bool.and_eq_true] at hok
        cases hv : translate_node st v with
        | error e => rw [hv, errorBind] at h; exact absurd h (by simp)
        | ok sv =>
          rw [hv, okBind] at h
          cases hr : translate_list_assign st off (i + 1) vs with
          | error e => rw [hr, errorBind] at h; exact absurd h (by simp)
          | ok sr =>
            rw [hr, okBind] at h
            cases h
            exact append_alpha
              (append_alpha
                (append_alpha (ih1 v (by omega) st sv hok.1 hv)
                  (num_alpha (Int.natCast_nonneg _)))
                (by decide))
              (ih3 vs (by omega) st off (i + 1) sr hok.2 hr)
lemma argsPrologue_alpha :
    ∀ (l : List String) (st : TState) (pro : List Char),
      argsPrologue st l = .ok pro → ∀ c ∈ pro, c ∈ opcodeAlphabet := by
  intro l
  induction l with
  | nil =>
    intro st pro h
    cases h
    intro c hc
    simp at hc
  | cons a rest ih =>
    intro st pro h
    rw [argsPrologue] at h
    split at h
    · exact absurd h (by simp)
    · rename_i off heq
      cases hr : argsPrologue st rest with
      | error e => rw [hr, errorBind] at h; exact absurd h (by simp)
      | ok rest' =>
        rw [hr, okBind] at h
        cases h
        exact append_alpha (append_alpha (num_alpha (Int.natCast_nonneg _))
          (by decide)) (ih st rest' hr)

lemma dictInsert_mem {α : Type} (k : String) (v : α) :
    ∀ (l : List (String × α)) (p : String × α),
      p ∈ dictInsert k v l → p = (k, v) ∨ p ∈ l := by
  intro l
  induction l with
  | nil =>
    intro p hp
    rw [dictInsert] at hp
    rcases List.mem_cons.mp hp with rfl | h
    · exact Or.inl rfl
    · simp at h
  | cons q rest ih =>
    intro p hp
    obtain ⟨k', v'⟩ := q
    rw [dictInsert] at hp
    by_cases hk : k = k'
    · rw [if_pos hk] at hp
      rcases List.mem_cons.mp hp with rfl | h
      · exact Or.inl rfl
      · exact Or.inr (List.mem_cons_of_mem _ h)
    · rw [if_neg hk] at hp
      rcases List.mem_cons.mp hp with rfl | h
      · exact Or.inr (List.mem_cons_self _ _)
      · rcases ih p h with h1 | h2
        · exact Or.inl h1
        · exact Or.inr (List.mem_cons_of_mem _ h2)

lemma setFuncOps_mem (fname : String) (ops : List Char) :
    ∀ (l : List (String × FuncEntry)) (p : String × FuncEntry),
      p ∈ setFuncOps fname ops l → p.2.opcodes = some ops ∨ p ∈ l := by
  intro l
  induction l with
  | nil =>
    intro p hp
    rw [setFuncOps] at hp
    simp at hp
  | cons q rest ih =>
    intro p hp
    obtain ⟨k, e⟩ := q
    rw [setFuncOps] at hp
    by_cases hk : k = fname
    · rw [if_pos hk] at hp
      rcases List.mem_cons.mp hp with rfl | h
      · exact Or.inl rfl
      · exact Or.inr (List.mem_cons_of_mem _ h)
    · rw [if_neg hk] at hp
      rcases List.mem_cons.mp hp with rfl | h
      · exact Or.inr (List.mem_cons_self _ _)
      · rcases ih p h with h1 | h2
        · exact Or.inl h1
        · exact Or.inr (List.mem_cons_of_mem _ h2)

lemma translate_function_alpha {st : TState} {fname : String} {args : List String}
    {body : List Node} {st' : TState}
    (hok : okNodes body = true)
    (hA : ∀ f ∈ st.functions, ∀ c ∈ f.2.opcodes.getD [], c ∈ opcodeAlphabet)
    (h : translate_function st fname args body = .ok st') :
    ∀ f ∈ st'.functions, ∀ c ∈ f.2.opcodes.getD [], c ∈ opcodeAlphabet := by
  obtain ⟨st2, pro, st3, bodyS, h2, h3, h4, h5, hst'⟩ :=
    translate_function_parts st fname args body st' h
  have hst2 := allocLocals_pres args _ st2 h2
  have hst3 := allocDiscovered_pres _ args st2 st3 h4
  have hf3 : st3.functions = dictInsert fname ⟨st.funcs_len, none⟩ st.functions := by
    rw [hst3.2.2.1, hst2.2.2.1]
  have hbodyAlpha : ∀ c ∈ bodyS, c ∈ opcodeAlphabet :=
    (translate_node_alpha_aux (sizeOf body)).2.1 body le_rfl st3 bodyS hok h5
  have hproAlpha := argsPrologue_alpha args.reverse st2 pro h3
  intro f hf c hc
  rw [hst'] at hf
  rcases setFuncOps_mem fname _ st3.functions f hf with hnew | hold
  · rw [hnew, Option.getD_some] at hc
    exact append_alpha (append_alpha hproAlpha hbodyAlpha) (by decide) c hc
  · rw [hf3] at hold
    rcases dictInsert_mem fname _ st.functions f hold with rfl | horig
    · simp at hc
    · exact hA f horig c hc

lemma translateFunctions_alpha :
    ∀ (tree : List Node) (st st' : TState), okNodes tree = true →
      (∀ f ∈ st.functions, ∀ c ∈ f.2.opcodes.getD [], c ∈ opcodeAlphabet) →
      translateFunctions st tree = .ok st' →
      ∀ f ∈ st'.functions, ∀ c ∈ f.2.opcodes.getD [], c ∈ opcodeAlphabet := by
  intro tree
  induction tree with
  | nil =>
    intro st st' _ hA h
    simp [translateFunctions] at h
    subst h
    exact hA
  | cons n rest ih =>
    intro st st' hok hA h
    rw [okNodes, Bool.and_eq_true] at hok
    have hstep : (∃ f a b, n = Node.functionDef f a b)
        ∨ translateFunctions st (n :: rest) = translateFunctions st rest := by
      cases n
      case functionDef f a b => exact Or.inl ⟨f, a, b, rfl⟩
      all_goals exact Or.inr rfl
    rcases hstep with ⟨fname, args, body, rfl⟩ | heq
    · rw [translateFunctions] at h
      cases htf : translate_function st fname args body with
      | error e => rw [htf, errorBind] at h; exact absurd h (by simp)
      | ok stf =>
        rw [htf, okBind] at h
        have hokbody : okNodes body = true := by
          have h1 := hok.1
          rwa [okNode] at h1
        exact ih stf st' hok.2 (translate_function_alpha hokbody hA htf) h
    · rw [heq] at h
      exact ih st st' hok.2 hA h

lemma emitPrologue_alpha {st : TState} {pro : List Char}
    (h : emitPrologue st = .ok pro) : ∀ c ∈ pro, c ∈ opcodeAlphabet := by
  rw [emitPrologue] at h
  split at h
  · split at h
    · exact absurd h (by simp)
    · cases h
      refine append_alpha ?_ (by decide)
      intro c hc
      rw [padRight] at hc
      rcases List.mem_append.mp hc with h1 | h1
      · exact num_alpha (Int.natCast_nonneg _) c h1
      · rw [List.eq_of_mem_replicate h1]
        decide
  · cases h
    intro c hc
    simp at hc

lemma translateTopLevel_alpha :
    ∀ (tree : List Node) (st : TState) (out : List Char), okNodes tree = true →
      translateTopLevel st tree = .ok out → ∀ c ∈ out, c ∈ opcodeAlphabet := by
  intro tree
  induction tree with
  | nil =>
    intro st out _ h
    cases h
    intro c hc
    simp at hc
  | cons n rest ih =>
    intro st out hok h
    rw [okNodes, Bool.and_eq_true] at hok
    have hstep : (∃ m, n = Node.importFrom m)
        ∨ (∃ f a b, n = Node.functionDef f a b)
        ∨ translateTopLevel st (n :: rest) = (do
            let s ← translate_node st n
            let r ← translateTopLevel st rest
            Except.ok (s ++ r)) := by
      cases n
      case importFrom m => exact Or.inl ⟨m, rfl⟩
      case functionDef f a b => exact Or.inr (Or.inl ⟨f, a, b, rfl⟩)
      all_goals exact Or.inr (Or.inr rfl)
    rcases hstep with ⟨m, rfl⟩ | ⟨fname, args, body, rfl⟩ | heq
    · rw [translateTopLevel] at h
      split at h
      · exact ih st out hok.2 h
      · cases htn : translate_node st (Node.importFrom m) with
        | error e => rw [htn, errorBind] at h; exact absurd h (by simp)
        | ok s0 =>
          rw [translate_node] at htn
          exact absurd htn (by simp)
    · rw [translateTopLevel] at h
      exact ih st out hok.2 h
    · rw [heq] at h
      cases htn : translate_node st n with
      | error e => rw [htn, errorBind] at h; exact absurd h (by simp)
      | ok s0 =>
        rw [htn, okBind] at h
        cases hr : translateTopLevel st rest with
        | error e => rw [hr, errorBind] at h; exact absurd h (by simp)
        | ok r0 =>
          rw [hr, okBind] at h
          cases h
          exact append_alpha
            ((translate_node_alpha_aux (sizeOf n)).1 n le_rfl st s0 hok.1 htn)
            (ih st r0 hok.2 hr)
/-- C2, counterexample: the spec claims alphabet closure "including programs
whose top level or function bodies contain while loops", but the While
lowering emits `chr(0x61 - len(...))` for the negative backward offset, a
character outside the §6 opcode alphabet.  `i = 0; while i: 0` compiles
successfully and its output contains `'Y'` (`0x61 - 8`), which is not in
the alphabet. -/
theorem c2_alphabet_closure_cex :
    translate [.assign [.name "i"] (.num 0),
               .whileStmt (.name "i") [.exprStmt (.num 0)] []]
        = .ok "aaKYaFaEcZaGDD".data
      ∧ 'Y' ∈ "aaKYaFaEcZaGDD".data ∧ 'Y' ∉ opcodeAlphabet :=
  ⟨rfl, by decide, by decide⟩

/-- C2 (amended): for every source program that is free of `while` loops
and whose integer literals are nonnegative (`okNodes`), every character of
a successful compile's output is in the 28-character opcode alphabet of
§6. -/
theorem c2_alphabet_closure (tree : List Node) (hok : okNodes tree = true)
    (out : List Char) (h : translate tree = .ok out) :
    ∀ c ∈ out, c ∈ opcodeAlphabet := by
  rw [translate] at h
  cases h1 : stage12 tree with
  | error e => rw [h1, errorBind] at h; exact absurd h (by simp)
  | ok st =>
    rw [h1, okBind] at h
    cases h2 : emitPrologue st with
    | error e => rw [h2, errorBind] at h; exact absurd h (by simp)
    | ok pro =>
      rw [h2, okBind] at h
      cases h3 : translateTopLevel st tree with
      | error e => rw [h3, errorBind] at h; exact absurd h (by simp)
      | ok body =>
        rw [h3, okBind] at h
        cases h
        rw [stage12] at h1
        cases h4 : allocGlobalsAndArrays initTState (countNodes false [] tree) with
        | error e => rw [h4, errorBind] at h1; exact absurd h1 (by simp)
        | ok st1 =>
          rw [h4, okBind] at h1
          have hfn1 : st1.functions = [] :=
            (allocGlobalsAndArrays_pres _ _ _ h4).2.1
          have hA : ∀ f ∈ st.functions, ∀ c ∈ f.2.opcodes.getD [],
              c ∈ opcodeAlphabet :=
            translateFunctions_alpha tree st1 st hok
              (by rw [hfn1]; intro f hf; simp at hf) h1
          have hfb : ∀ c ∈ funcBodies st, c ∈ opcodeAlphabet := by
            intro c hc
            rw [funcBodies, List.mem_flatten] at hc
            obtain ⟨l, hl, hcl⟩ := hc
            rw [List.mem_map] at hl
            obtain ⟨f, hf, rfl⟩ := hl
            exact hA f hf c hcl
          exact append_alpha (append_alpha (emitPrologue_alpha h2) hfb)
            (translateTopLevel_alpha tree st body hok h3)

theorem c2_alphabet_closure_witness :
    okNodes [Node.assign [.name "x"] (.num 5),
             .exprStmt (.call (.name "putint") [.name "x"])] = true
    ∧ ∀ c ∈ "faKaEI".data, c ∈ opcodeAlphabet :=
  ⟨rfl, c2_alphabet_closure
    [Node.assign [.name "x"] (.num 5),
     .exprStmt (.call (.name "putint") [.name "x"])] rfl "faKaEI".data rfl⟩
lemma read_var_sum {st : TState} {nm : String} {s : List Char}
    (h : read_var st nm = .ok s) : sumEff s = some 1 := by
  rw [read_var] at h
  cases hl : dictLookup nm st.locals with
  | some off =>
    rw [hl] at h
    cases h
    have := sumEff_some_append (sumEff_num (Int.natCast_nonneg off))
      (show sumEff [HEAP_READ] = some 0 by decide)
    simpa using this
  | none =>
    rw [hl] at h
    cases hg : dictLookup nm st.globals with
    | some off =>
      rw [hg] at h
      cases h
      have := sumEff_some_append (sumEff_num (Int.natCast_nonneg off))
        (show sumEff [HEAP_READ] = some 0 by decide)
      simpa using this
    | none => rw [hg] at h; cases h

lemma write_var_sum {st : TState} {nm : String} {s : List Char}
    (h : write_var st nm = .ok s) : sumEff s = some (-1) := by
  rw [write_var] at h
  cases hl : dictLookup nm st.locals with
  | some off =>
    rw [hl] at h
    cases h
    have := sumEff_some_append (sumEff_num (Int.natCast_nonneg off))
      (show sumEff [HEAP_WRITE] = some (-2) by decide)
    simpa using this
  | none =>
    rw [hl] at h
    cases hg : dictLookup nm st.globals with
    | some off =>
      rw [hg] at h
      cases h
      have := sumEff_some_append (sumEff_num (Int.natCast_nonneg off))
        (show sumEff [HEAP_WRITE] = some (-2) by decide)
      simpa using this
    | none => rw [hg] at h; cases h

/-- The Subscript lowering, given a successful array lookup and index
lowering. -/
lemma translate_node_subscript (st : TState) (v : String) (sl : Node)
    (store : Bool) (arr : ArrEntry) (ha : dictLookup v st.arrays = some arr)
    (idxS : List Char) (hsl : translate_node st sl = .ok idxS) :
    translate_node st (.subscript v sl store)
      = .ok (num ((arr.offset : Nat)) ++ idxS ++ [STACK_ADD]
             ++ (if store then [HEAP_WRITE] else [HEAP_READ])) := by
  rw [translate_node, ha, hsl]
  rfl

/-- The array-literal Assign branch, given a successful array lookup. -/
lemma translate_node_assign_list (st : TState) (an : String) (elts : List Node)
    (arr : ArrEntry) (ha : dictLookup an st.arrays = some arr) :
    translate_node st (.assign [.name an] (.list elts))
      = translate_list_assign st arr.offset 0 elts := by
  rw [translate_node, ha]

/-- Each element write of the list-assign loop is `element ++ num(off+i) ++
HEAP_WRITE`, statically `+1 +1 -2 = 0`; the whole loop is neutral whenever
every element's lowering has net effect `+1`. -/
lemma translate_list_assign_sum :
    ∀ (elts : List Node) (st : TState) (off i : Nat) (s : List Char),
      (∀ e ∈ elts, ∀ sE, translate_node st e = .ok sE → sumEff sE = some 1) →
      translate_list_assign st off i elts = .ok s → sumEff s = some 0 := by
  intro elts
  induction elts with
  | nil =>
    intro st off i s _ h
    cases h
    rfl
  | cons v vs ih =>
    intro st off i s helem h
    rw [translate_list_assign] at h
    cases hv : translate_node st v with
    | error e => rw [hv, errorBind] at h; exact absurd h (by simp)
    | ok sv =>
      rw [hv, okBind] at h
      cases hr : translate_list_assign st off (i + 1) vs with
      | error e => rw [hr, errorBind] at h; exact absurd h (by simp)
      | ok sr =>
        rw [hr, okBind] at h
        cases h
        have h1 := helem v (by simp) sv hv
        have h2 := ih st off (i + 1) sr
          (fun e he sE hE => helem e (by simp [he]) sE hE) hr
        have := sumEff_some_append (sumEff_some_append (sumEff_some_append h1
          (sumEff_num (Int.natCast_nonneg (off + i))))
          (show sumEff [HEAP_WRITE] = some (-2) by decide)) h2
        simpa using this

/-- C4, counterexample: `Expr` statements are lowered to their bare
expression, so the statement `5` emits `"f"` with net stack effect `+1`,
not `0`. -/
theorem c4_statement_neutrality_cex :
    translate_node initTState (.exprStmt (.num 5)) = .ok ['f']
      ∧ sumEff ['f'] = some 1 ∧ (some 1 : Option Int) ≠ some 0 :=
  ⟨rfl, by decide, by decide⟩

/-- C4 (amended): statement lowerings are stack-neutral for `Assign`
(plain-name, subscript and array-literal targets), `AugAssign`, `If`,
statement-position `putchar`/`putint` calls, and statement-position
zero-argument user-function calls, whenever each contained expression's
lowering has net effect `+1` and each contained statement block's lowering
has net effect `0`; an `Expr` statement instead inherits its expression's
lowering verbatim (the counterexample's `+1`). -/
theorem c4_statement_neutrality (st : TState) :
    (∀ (tname : String) (value : Node) (vS w : List Char),
        (∀ elts, value ≠ Node.list elts) →
        translate_node st value = .ok vS → sumEff vS = some 1 →
        write_var st tname = .ok w →
        translate_node st (.assign [.name tname] value) = .ok (vS ++ w)
          ∧ sumEff (vS ++ w) = some 0)
    ∧ (∀ (v : String) (sl value : Node) (arr : ArrEntry) (vS idxS : List Char),
        (∀ elts, value ≠ Node.list elts) →
        dictLookup v st.arrays = some arr →
        translate_node st value = .ok vS → sumEff vS = some 1 →
        translate_node st sl = .ok idxS → sumEff idxS = some 1 →
        ∃ out, translate_node st (.assign [.subscript v sl true] value) = .ok out
          ∧ sumEff out = some 0)
    ∧ (∀ (an : String) (elts : List Node) (arr : ArrEntry) (out : List Char),
        dictLookup an st.arrays = some arr →
        (∀ e ∈ elts, ∀ sE, translate_node st e = .ok sE → sumEff sE = some 1) →
        translate_node st (.assign [.name an] (.list elts)) = .ok out →
        sumEff out = some 0)
    ∧ (∀ (target : String) (op : BinOpKind) (value : Node) (r vS w : List Char),
        read_var st target = .ok r →
        translate_node st value = .ok vS → sumEff vS = some 1 →
        write_var st target = .ok w →
        translate_node st (.augAssign target op value)
            = .ok (r ++ vS ++ [binOpChar op] ++ w)
          ∧ sumEff (r ++ vS ++ [binOpChar op] ++ w) = some 0)
    ∧ (∀ (test : Node) (body orelse : List Node) (t b e : List Char),
        translate_node st test = .ok t → sumEff t = some 1 →
        translate_nodes st body = .ok b → sumEff b = some 0 →
        translate_nodes st orelse = .ok e → sumEff e = some 0 →
        ∃ out, translate_node st (.ifStmt test body orelse) = .ok out
          ∧ sumEff out = some 0)
    ∧ (∀ (arg : Node) (aS : List Char),
        translate_node st arg = .ok aS → sumEff aS = some 1 →
        (∃ out, translate_node st (.exprStmt (.call (.name "putchar") [arg]))
            = .ok out ∧ sumEff out = some 0)
        ∧ ∃ out, translate_node st (.exprStmt (.call (.name "putint") [arg]))
            = .ok out ∧ sumEff out = some 0)
    ∧ (∀ (fname : String) (entry : FuncEntry),
        dictLookup fname st.functions = some entry →
        fname ≠ "putchar" → fname ≠ "putint" → fname ≠ "puts" →
        ∃ out, translate_node st (.exprStmt (.call (.name fname) [])) = .ok out
          ∧ sumEff out = some 0)
    ∧ (∀ v : Node, translate_node st (.exprStmt v) = translate_node st v) := by
  refine ⟨?_, ?_, ?_, ?_, ?_, ?_, ?_, ?_⟩
  · intro tname value vS w hv hval hsum hw
    constructor
    · rw [translate_node_assign_name st tname value hv, hval, okBind, hw, okBind]
    · have := sumEff_some_append hsum (write_var_sum hw)
      simpa using this
  · intro v sl value arr vS idxS hv ha hval hsum hsl hidxsum
    refine ⟨vS ++ (num ((arr.offset : Nat)) ++ idxS ++ [STACK_ADD]
        ++ [HEAP_WRITE]), ?_, ?_⟩
    · rw [translate_node_assign_sub st v sl true value hv, hval, okBind,
        translate_node_subscript st v sl true arr ha idxS hsl, okBind,
        if_pos rfl]
    · have htgtsum : sumEff (num ((arr.offset : Nat)) ++ idxS ++ [STACK_ADD]
          ++ [HEAP_WRITE]) = some (-1) := by
        have := sumEff_some_append (sumEff_some_append (sumEff_some_append
          (sumEff_num (Int.natCast_nonneg arr.offset)) hidxsum)
          (show sumEff [STACK_ADD] = some (-1) by decide))
          (show sumEff [HEAP_WRITE] = some (-2) by decide)
        simpa using this
      have := sumEff_some_append hsum htgtsum
      simpa using this
  · intro an elts arr out ha helem hout
    rw [translate_node_assign_list st an elts arr ha] at hout
    exact translate_list_assign_sum elts st arr.offset 0 out helem hout
  · intro target op value r vS w hr hval hsum hw
    constructor
    · rw [translate_node, hr, okBind, hval, okBind, hw, okBind]
    · have hop : sumEff [binOpChar op] = some (-1) := by cases op <;> decide
      have := sumEff_some_append (sumEff_some_append
        (sumEff_some_append (read_var_sum hr) hsum) hop) (write_var_sum hw)
      simpa using this
  · intro test body orelse t b e ht hts hb hbs he hes
    refine ⟨t ++ num (((b ++ num ((e.length : Nat)) ++ [GO]).length : Nat))
        ++ [CONDITIONAL_JUMP] ++ (b ++ num ((e.length : Nat)) ++ [GO]) ++ e,
      ?_, ?_⟩
    · rw [translate_node, ht, okBind, hb, okBind, he, okBind]
    · have hstep : sumEff (b ++ num ((e.length : Nat)) ++ [GO]) = some 0 := by
        have := sumEff_some_append (sumEff_some_append hbs
          (sumEff_num (Int.natCast_nonneg e.length)))
          (show sumEff [GO] = some (-1) by decide)
        simpa using this
      have := sumEff_some_append (sumEff_some_append (sumEff_some_append
        (sumEff_some_append hts
          (sumEff_num (Int.natCast_nonneg
            (b ++ num ((e.length : Nat)) ++ [GO]).length)))
        (show sumEff [CONDITIONAL_JUMP] = some (-2) by decide)) hstep) hes
      simpa using this
  · intro arg aS harg hsum
    have hargs : translate_nodes st [arg] = .ok aS := by
      rw [translate_nodes, harg, okBind, translate_nodes, okBind, List.append_nil]
    constructor
    · refine ⟨aS ++ [PRINT_ASCII], ?_, ?_⟩
      · rw [translate_node, translate_node, if_pos (Or.inl (Or.inl rfl)),
          hargs, okBind, if_pos rfl]
      · have := sumEff_some_append hsum
          (show sumEff [PRINT_ASCII] = some (-1) by decide)
        simpa using this
    · refine ⟨aS ++ [PRINT_NUM], ?_, ?_⟩
      · rw [translate_node, translate_node,
          if_pos (Or.inl (Or.inr (Or.inl rfl))), hargs, okBind,
          if_neg (by decide), if_pos rfl]
      · have := sumEff_some_append hsum
          (show sumEff [PRINT_NUM] = some (-1) by decide)
        simpa using this
  · intro fname entry hf hne1 hne2 hne3
    refine ⟨[] ++ num ((entry.offset : Nat)) ++ [CALL], ?_, ?_⟩
    · rw [translate_node, translate_node,
        if_pos (Or.inr (show (dictLookup fname st.functions).isSome = true
          by rw [hf]; rfl)),
        translate_nodes, okBind, if_neg hne1, if_neg hne2, if_neg hne3, hf]
    · have := sumEff_some_append (sumEff_some_append
        (show sumEff ([] : List Char) = some 0 from rfl)
        (sumEff_num (Int.natCast_nonneg entry.offset)))
        (show sumEff [CALL] = some (-1) by decide)
      simpa using this
  · intro v
    rw [translate_node]

theorem c4_statement_neutrality_witness :
    translate_node { initTState with globals := [("x", 0)] }
        (.assign [.name "x"] (.num 5)) = .ok "faK".data
      ∧ sumEff "faK".data = some 0 :=
  (c4_statement_neutrality { initTState with globals := [("x", 0)] }).1
    "x" (.num 5) ['f'] ['a', 'K'] (fun _ he => by cases he) rfl (by decide) rfl

end Py2Lscvm
